import Mathlib

/-!
Verification development for the bank-statement transaction extractor of the
neat-financial-tracker repository.

Text is modelled as lists of Unicode code points (`Str := List Nat`), which
keeps every string operation of the JavaScript source executable and
decidable.  JavaScript numbers are modelled as rationals (`ℚ`): every numeric
literal the pipeline parses is a short decimal, on which IEEE-754 doubles are
exact and injective, so equality/percentage comparisons agree with the model.
`new Date(...)` values are modelled as an optional epoch-millisecond integer
(`none` plays the role of an Invalid Date / NaN timestamp).
-/

abbrev Str := List Nat

/-- Code point of a slash. -/
def slashCh : Nat := 47
/-- Code point of a comma. -/
def commaCh : Nat := 44
/-- Code point of a full stop. -/
def dotCh : Nat := 46
/-- Code point of a space. -/
def spaceCh : Nat := 32
/-- Code point of the hyphen-minus sign. -/
def hyphenCh : Nat := 45
/-- Code point of a double quote. -/
def quoteCh : Nat := 34
/-- Code point of a line feed. -/
def newlineCh : Nat := 10

/-- Convert a Lean string literal to its list of code points. -/
def strN (s : String) : Str := s.data.map Char.toNat

/-- ASCII decimal digit test (the JavaScript regex class backslash-d). -/
def isDigitN (n : Nat) : Bool := decide (48 ≤ n ∧ n ≤ 57)

/-- Numeric value of an ASCII digit code point. -/
def digitVal (n : Nat) : Nat := n - 48

/-- The JavaScript whitespace set: the class backslash-s of regexes, which is
also the set trimmed by `String.prototype.trim`. -/
def isJsSpace (n : Nat) : Bool :=
  decide (n = 9 ∨ n = 10 ∨ n = 11 ∨ n = 12 ∨ n = 13 ∨ n = 32 ∨ n = 160 ∨
    n = 5760 ∨ (8192 ≤ n ∧ n ≤ 8202) ∨ n = 8232 ∨ n = 8233 ∨ n = 8239 ∨
    n = 8287 ∨ n = 12288 ∨ n = 65279)

/-- The JavaScript word-character set (the regex class backslash-w),
used for word boundaries. -/
def isWordChar (n : Nat) : Bool :=
  isDigitN n || decide ((65 ≤ n ∧ n ≤ 90) ∨ (97 ≤ n ∧ n ≤ 122) ∨ n = 95)

/-- `String.prototype.toUpperCase` restricted to the Basic Latin and
Latin-1 letters (the only letters occurring in the pipeline's keyword
tables and statement text). -/
def jsToUpper (n : Nat) : Nat :=
  if (97 ≤ n ∧ n ≤ 122) ∨ (224 ≤ n ∧ n ≤ 254 ∧ n ≠ 247) then n - 32 else n

/-- `String.prototype.toLowerCase` restricted to Basic Latin and
Latin-1 letters. -/
def jsToLower (n : Nat) : Nat :=
  if (65 ≤ n ∧ n ≤ 90) ∨ (192 ≤ n ∧ n ≤ 222 ∧ n ≠ 215) then n + 32 else n

/-- Whether the first list is an initial segment of the second. -/
def startsWithSeq : Str → Str → Bool
  | [], _ => true
  | _ :: _, [] => false
  | a :: s, b :: t => a == b && startsWithSeq s t

/-- Whether the first list occurs contiguously inside the second
(`String.prototype.includes`). -/
def containsSub (n : Str) : Str → Bool
  | [] => n.isEmpty
  | c :: t => startsWithSeq n (c :: t) || containsSub n t

/-- Drop trailing JavaScript whitespace. -/
def trimEndWs : Str → Str
  | [] => []
  | c :: t =>
    match trimEndWs t with
    | [] => if isJsSpace c then [] else [c]
    | r => c :: r

/-- `String.prototype.trim`. -/
def jsTrim (s : Str) : Str := trimEndWs (s.dropWhile isJsSpace)

/-- Worker for `collapseWs`; the flag records whether the previously
emitted character was the replacement space of a whitespace run. -/
def collapseWsAux : Bool → Str → Str
  | _, [] => []
  | prevSp, c :: t =>
    if isJsSpace c then
      if prevSp then collapseWsAux true t else spaceCh :: collapseWsAux true t
    else c :: collapseWsAux false t

/-- `replace` of every maximal whitespace run by one space
(the source's `replace` with the global backslash-s-plus pattern). -/
def collapseWs (s : Str) : Str := collapseWsAux false s

/-- `String.prototype.split` on a single separator code point. -/
def jsSplitOn (sep : Nat) : Str → List Str
  | [] => [[]]
  | c :: t =>
    if c = sep then [] :: jsSplitOn sep t
    else
      match jsSplitOn sep t with
      | [] => [[c]]
      | h :: r => (c :: h) :: r

/-- `String.prototype.split` on a character-class predicate. -/
def jsSplitOnPred (p : Nat → Bool) : Str → List Str
  | [] => [[]]
  | c :: t =>
    if p c then [] :: jsSplitOnPred p t
    else
      match jsSplitOnPred p t with
      | [] => [[c]]
      | h :: r => (c :: h) :: r

/-- `String.prototype.padStart(2, "0")`. -/
def padStart2 (s : Str) : Str := List.replicate (2 - s.length) 48 ++ s

/-- `String.prototype.substring`: clamps both indices to the length and
swaps them when start exceeds end. -/
def jsSubstring (s : Str) (a b : Nat) : Str :=
  let a' := min a s.length
  let b' := min b s.length
  (s.take (max a' b')).drop (min a' b')

/-- Replace the first occurrence of a code point (`String.prototype.replace`
with a plain-string pattern). -/
def replaceFirst (old new : Nat) : Str → Str
  | [] => []
  | c :: t => if c = old then new :: t else c :: replaceFirst old new t

/-- Drop one trailing double quote if present. -/
def trimQuoteEnd : Str → Str
  | [] => []
  | [c] => if c = quoteCh then [] else [c]
  | c :: t => c :: trimQuoteEnd t

/-- The source's `replace` of the pattern anchored-quote-or-quote-anchored:
strips one leading and one trailing double quote. -/
def stripQuotes (s : Str) : Str :=
  trimQuoteEnd
    (match s with
      | c :: t => if c = quoteCh then t else c :: t
      | [] => [])

/-- Decimal value of a list of ASCII digit code points. -/
def digitsToNat (ds : Str) : Nat := ds.foldl (fun a d => a * 10 + (d - 48)) 0

/-- Fuelled decimal rendering of a natural number. -/
def natToStrAux : Nat → Nat → Str
  | 0, _ => []
  | fuel + 1, n =>
    if n < 10 then [48 + n] else natToStrAux fuel (n / 10) ++ [48 + n % 10]

/-- Decimal rendering of a natural number (JavaScript template
interpolation of a nonnegative integer). -/
def natToStr (n : Nat) : Str := natToStrAux (n + 1) n

/-- Decimal rendering of an integer. -/
def intToStr (i : Int) : Str :=
  if i < 0 then hyphenCh :: natToStr i.natAbs else natToStr i.toNat

/-- `parseInt(s, 10)`: leading whitespace, optional sign, decimal digit
prefix; `none` models NaN. -/
def jsParseInt (s : Str) : Option Int :=
  let s1 := s.dropWhile isJsSpace
  let (neg, s2) : Bool × Str :=
    match s1 with
    | c :: t => if c = hyphenCh then (true, t) else if c = 43 then (false, t) else (false, c :: t)
    | [] => (false, [])
  let ds := s2.takeWhile isDigitN
  if ds.isEmpty then none
  else some (if neg then -(digitsToNat ds : Int) else (digitsToNat ds : Int))

/-- Fuelled Euclidean algorithm; with fuel exceeding the first argument it
agrees with `Nat.gcd` and, unlike it, unfolds inside the kernel. -/
def gcdSteps : Nat → Nat → Nat → Nat
  | 0, _, b => b
  | f + 1, a, b => if a = 0 then b else gcdSteps f (b % a) a

/-- Kernel-reducible greatest common divisor. -/
def gcdN (a b : Nat) : Nat := gcdSteps (a + 1) a b

/-- The fuelled Euclidean algorithm computes `Nat.gcd`. -/
theorem gcdSteps_eq_gcd : ∀ (a : Nat) (f b : Nat), a < f → gcdSteps f a b = Nat.gcd a b := by
  intro a
  induction a using Nat.strong_induction_on with
  | _ a ih =>
    intro f b hf
    match f with
    | g + 1 =>
      by_cases ha : a = 0
      · subst ha; simp [gcdSteps]
      · rw [gcdSteps, if_neg ha, ih (b % a) (Nat.mod_lt b (Nat.pos_of_ne_zero ha)) g a
          (by have := Nat.mod_lt b (Nat.pos_of_ne_zero ha); omega)]
        exact (Nat.gcd_rec a b).symm

/-- `gcdN` is `Nat.gcd`. -/
theorem gcdN_eq_gcd (a b : Nat) : gcdN a b = Nat.gcd a b :=
  gcdSteps_eq_gcd a (a + 1) b (Nat.lt_succ_self a)

/-- The rational `num / 10 ^ scale` in lowest terms, built directly with
`Rat.mk'` so that it evaluates by kernel reduction (the library's rational
arithmetic normalises through well-founded recursion, which does not). -/
def ratOfNatScale (num scale : Nat) : ℚ :=
  let den := 10 ^ scale
  let g := gcdN num den
  Rat.mk' (Int.ofNat (num / g)) (den / g)
    (by
      have hden : 0 < den := Nat.pos_pow_of_pos scale (by omega)
      have hg : 0 < Nat.gcd num den := Nat.gcd_pos_of_pos_right num hden
      have : 0 < den / Nat.gcd num den :=
        Nat.div_pos (Nat.le_of_dvd hden (Nat.gcd_dvd_right num den)) hg
      simp only [g, gcdN_eq_gcd]
      omega)
    (by
      have hden : 0 < den := Nat.pos_pow_of_pos scale (by omega)
      have hg : 0 < Nat.gcd num den := Nat.gcd_pos_of_pos_right num hden
      simpa [g, gcdN_eq_gcd, Int.natAbs_ofNat] using Nat.coprime_div_gcd_div_gcd hg)

/-- `Math.abs` on the rational model of JavaScript numbers. -/
def jsAbs (q : ℚ) : ℚ := if q < 0 then -q else q

/-- `parseFloat`: leading whitespace, optional sign, decimal mantissa with
optional fraction and optional exponent; longest valid prefix; `none`
models NaN.  (The `Infinity` literal, never produced by this pipeline,
is not modelled.) -/
def jsParseFloat (s : Str) : Option ℚ :=
  let s1 := s.dropWhile isJsSpace
  let (neg, s2) : Bool × Str :=
    match s1 with
    | c :: t => if c = hyphenCh then (true, t) else if c = 43 then (false, t) else (false, c :: t)
    | [] => (false, [])
  let ip := s2.takeWhile isDigitN
  let s3 := s2.drop ip.length
  let (fp, s4) : Str × Str :=
    match s3 with
    | c :: t => if c = dotCh then (t.takeWhile isDigitN, t.drop (t.takeWhile isDigitN).length) else ([], c :: t)
    | [] => ([], [])
  if ip.isEmpty && fp.isEmpty then none
  else
    let expPart : Option (Bool × Nat) :=
      match s4 with
      | c :: t =>
        if c = 101 ∨ c = 69 then
          let (eneg, t2) : Bool × Str :=
            match t with
            | d :: r => if d = hyphenCh then (true, r) else if d = 43 then (false, r) else (false, d :: r)
            | [] => (false, [])
          let eds := t2.takeWhile isDigitN
          if eds.isEmpty then none else some (eneg, digitsToNat eds)
        else none
      | [] => none
    let base := digitsToNat (ip ++ fp)
    let scaled : ℚ :=
      match expPart with
      | some (true, e) => ratOfNatScale base (fp.length + e)
      | some (false, e) => ratOfNatScale (base * 10 ^ e) fp.length
      | none => ratOfNatScale base fp.length
    some (if neg then -scaled else scaled)

/-- Transaction direction. -/
inductive TransactionType
  | income
  | expense
deriving DecidableEq, Repr

/-- Transaction settlement status. -/
inductive TxStatus
  | completed
  | pending
deriving DecidableEq, Repr

/-- A transaction candidate produced by the PDF extractor
(`ParsedTransaction` of the source, with the future-section flag). -/
structure ParsedTransaction where
  date : Str
  description : Str
  value : ℚ
  type : TransactionType
  isFuture : Bool
deriving DecidableEq, Repr

/-- One value match of the Brazilian-decimal regex inside a line:
parsed amount, uppercased suffix (empty, C, D or star) and the match
index in the line. -/
structure ValueMatch where
  value : ℚ
  suffix : Str
  index : Nat
deriving DecidableEq, Repr

/-- The normalized transaction shape handed to the transaction store. -/
structure NormalizedTransaction where
  date : Str
  description : Str
  category : Option Str
  value : ℚ
  type : TransactionType
  status : TxStatus
  dueDate : Option Str
  paymentMethod : Option Str
  isImported : Bool
  isReconciled : Bool
deriving DecidableEq, Repr

/-- A row produced by the CSV parser (`ParsedRow` of the source). -/
structure ParsedRow where
  date : Str
  description : Str
  value : ℚ
  type : TransactionType
deriving DecidableEq, Repr

/-- The month and day of the processing date (`new Date()` as consulted by
`applyYearToDDMM`). -/
structure TodayDM where
  month : Nat
  day : Nat
deriving DecidableEq, Repr

/-! ## The PDF extractor (`extractTransactionsFromLines` and friends) -/

/-- Word-boundary test of the regex anchor backslash-b placed after a digit:
holds at end of input or before a non-word character. -/
def boundaryAt : Str → Bool
  | [] => true
  | c :: _ => !isWordChar c

/-- The anchored date pattern: two digits, slash, two digits, an optional
slash plus two more digits, then a word boundary.  Returns the captured
date text (the regex backtracks the optional year group when the
boundary fails after it). -/
def matchDatePrefix (s : Str) : Option Str :=
  match s with
  | d1 :: d2 :: c1 :: m1 :: m2 :: rest =>
    if isDigitN d1 && isDigitN d2 && c1 == slashCh && isDigitN m1 && isDigitN m2 then
      match rest with
      | c2 :: y1 :: y2 :: rest2 =>
        if c2 == slashCh && isDigitN y1 && isDigitN y2 && boundaryAt rest2 then
          some [d1, d2, slashCh, m1, m2, slashCh, y1, y2]
        else if boundaryAt rest then some [d1, d2, slashCh, m1, m2] else none
      | _ => if boundaryAt rest then some [d1, d2, slashCh, m1, m2] else none
    else none
  | _ => none

/-- The skip-keyword table of `extractTransactionsFromLines`. -/
def skipKeywordList : List Str :=
  [strN "SALDO", strN "BLOQ", strN "LIMITE", strN "RESUMO", strN "ANTERIOR",
   strN "DISPONÍVEL"]

/-- A line is skipped when its uppercased text contains a skip keyword. -/
def shouldSkip (s : Str) : Bool :=
  skipKeywordList.any (fun kw => containsSub kw (s.map jsToUpper))

/-- Test of the pattern LAN, C-or-C-cedilla, AMENTO, optional S, optional
whitespace, FUTURO at one position of an uppercased line. -/
def lancFuturoAt (u : Str) : Bool :=
  if startsWithSeq (strN "LAN") u then
    match u.drop 3 with
    | c :: r2 =>
      if c = 67 ∨ c = 199 then
        if startsWithSeq (strN "AMENTO") r2 then
          let r3 := r2.drop 6
          let r4 := match r3 with
            | 83 :: t => t
            | _ => r3
          startsWithSeq (strN "FUTURO") (r4.dropWhile isJsSpace)
        else false
      else false
    | [] => false
  else false

/-- Test of the pattern LANC-dot, optional whitespace, FUTURO at one
position of an uppercased line. -/
def lancDotFuturoAt (u : Str) : Bool :=
  if startsWithSeq (strN "LANC.") u then
    startsWithSeq (strN "FUTURO") ((u.drop 5).dropWhile isJsSpace)
  else false

/-- Whether a position-anchored test succeeds somewhere in the string. -/
def anyPosition (p : Str → Bool) : Str → Bool
  | [] => p []
  | s@(_ :: t) => p s || anyPosition p t

/-- The future-section header patterns of the source (lançamentos futuros,
lanc. futuros, previstos, agendados — case-insensitive). -/
def isFutureSectionHeader (s : Str) : Bool :=
  let u := s.map jsToUpper
  anyPosition lancFuturoAt u || anyPosition lancDotFuturoAt u ||
    containsSub (strN "PREVISTO") u || containsSub (strN "AGENDADO") u

/-- Greedily consume dot-plus-three-digit groups of the Brazilian thousands
notation; returns the consumed text and the remainder. -/
def eatGroups : Str → Str × Str
  | 46 :: a :: b :: c :: r =>
    if isDigitN a && isDigitN b && isDigitN c then
      let (g, r') := eatGroups r
      (46 :: a :: b :: c :: g, r')
    else ([], 46 :: a :: b :: c :: r)
  | s => ([], s)

/-- Try the numeric part of the value pattern at the head of the string with
`k` leading digits, backtracking from three digits down to one.  Returns the
matched numeric text and the remainder. -/
def tryNumAt (s : Str) : Nat → Option (Str × Str)
  | 0 => none
  | k + 1 =>
    let ds := s.take (k + 1)
    if ds.length = k + 1 && ds.all isDigitN then
      let (g, r2) := eatGroups (s.drop (k + 1))
      match r2 with
      | 44 :: x :: y :: r3 =>
        if isDigitN x && isDigitN y then some (ds ++ g ++ [44, x, y], r3)
        else tryNumAt s k
      | _ => tryNumAt s k
    else tryNumAt s k

/-- Match the full value pattern (numeric part, optional whitespace,
optional C/D/star suffix — case-insensitive) anchored at the head of the
string.  Returns the numeric text, the raw suffix and the remainder after
the whole match. -/
def matchValueAt (s : Str) : Option (Str × Str × Str) :=
  match tryNumAt s 3 with
  | none => none
  | some (num, rest) =>
    let rest' := rest.dropWhile isJsSpace
    match rest' with
    | c :: r4 =>
      if c = 67 ∨ c = 99 ∨ c = 68 ∨ c = 100 ∨ c = 42 then some (num, [c], r4)
      else some (num, [], rest')
    | [] => some (num, [], [])

/-- One raw match of the value regex: numeric text, raw suffix, index. -/
structure RawValue where
  num : Str
  suffix : Str
  index : Nat
deriving DecidableEq, Repr

/-- Fuelled left-to-right scan for all non-overlapping value-pattern
matches, mirroring the `exec` loop over the global regex. -/
def findRawValuesAux : Nat → Str → Nat → List RawValue
  | 0, _, _ => []
  | _, [], _ => []
  | fuel + 1, s@(_ :: t), pos =>
    match matchValueAt s with
    | some (num, suf, rest) =>
      ⟨num, suf, pos⟩ :: findRawValuesAux fuel rest (pos + (s.length - rest.length))
    | none => findRawValuesAux fuel t (pos + 1)

/-- All raw value-pattern matches of a line. -/
def findRawValues (s : Str) : List RawValue := findRawValuesAux s.length s 0

/-- The `test` of the value regex used by the multi-line absorption loop. -/
def hasAnyValue (s : Str) : Bool := !(findRawValues s).isEmpty

/-- Parse a raw match into a `ValueMatch` the way the `exec` loop does:
strip the dots, turn the comma into a dot, `parseFloat`, keep only finite
positive values, and uppercase the suffix. -/
def valueOfRaw (r : RawValue) : Option ValueMatch :=
  match jsParseFloat (replaceFirst commaCh dotCh (r.num.filter (fun c => !(c == dotCh)))) with
  | none => none
  | some q => if 0 < q then some ⟨q, r.suffix.map jsToUpper, r.index⟩ else none

/-- The value matches of a line that survive the finiteness/positivity
filter. -/
def findValues (s : Str) : List ValueMatch := (findRawValues s).filterMap valueOfRaw

/-- Prefer the first value with an explicit C or D suffix, else the first
value. -/
def selectValue (vs : List ValueMatch) : Option ValueMatch :=
  match vs.find? (fun v => v.suffix == [67] || v.suffix == [68]) with
  | some v => some v
  | none => vs.head?

/-- The expense-keyword table of the type-inference fallback. -/
def expenseKeywordList : List Str :=
  [strN "DEB", strN "EMIT", strN "TARIFA", strN "PAGAMENTO", strN "SAQUE",
   strN "TED", strN "DOC", strN "PIX ENV", strN "TRANSF."]

/-- The income-keyword table of the type-inference fallback. -/
def incomeKeywordList : List Str :=
  [strN "REC", strN "CRED", strN "DEP", strN "PIX REC", strN "TRANSF REC"]

/-- Type resolution: explicit D or C suffix first, else keyword inference
on the uppercased description, defaulting to expense. -/
def resolveType (suffix : Str) (desc : Str) : TransactionType :=
  if suffix = [68] then .expense
  else if suffix = [67] then .income
  else
    let descUpper := desc.map jsToUpper
    if expenseKeywordList.any (fun kw => containsSub kw descUpper) then .expense
    else if incomeKeywordList.any (fun kw => containsSub kw descUpper) then .income
    else .expense

/-- Build one transaction candidate from the (possibly multi-line) combined
text of a dated row: select a value, cut the description out between the
date and the value, clean it, and resolve the type. -/
def parseCombined (flag : Bool) (date combined : Str) : Option ParsedTransaction :=
  match selectValue (findValues combined) with
  | none => none
  | some v =>
    let desc1 := jsTrim (jsSubstring combined date.length v.index)
    let desc := jsTrim (collapseWs desc1)
    if desc.isEmpty || desc.length < 2 then none
    else
      some { date := date, description := desc.take 100, value := v.value,
             type := resolveType v.suffix desc, isFuture := flag }

/-- The multi-line absorption loop: while the combined text has no value
match, append following trimmed lines (skipping empty and skip-keyword
lines, stopping before a new dated line, and stopping after the combined
text exceeds 400 characters).  Returns the combined text and the
unconsumed lines. -/
def absorb (combined : Str) : List Str → Str × List Str
  | [] => (combined, [])
  | l :: rest =>
    if hasAnyValue combined then (combined, l :: rest)
    else
      let next := jsTrim l
      if next.isEmpty then absorb combined rest
      else if (matchDatePrefix next).isSome then (combined, l :: rest)
      else if shouldSkip next then absorb combined rest
      else
        let c' := jsTrim (collapseWs (combined ++ spaceCh :: next))
        if 400 < c'.length then (c', rest)
        else absorb c' rest

/-- Fuelled line scan of `extractTransactionsFromLines`: empty lines are
skipped, a future-section header sets the sticky flag, skip-keyword lines
are dropped, and each dated line (after multi-line absorption) yields at
most one candidate carrying the current flag. -/
def extractAux : Nat → Bool → List Str → List ParsedTransaction
  | 0, _, _ => []
  | _, _, [] => []
  | fuel + 1, flag, l :: rest =>
    let trimmed := jsTrim l
    if trimmed.isEmpty then extractAux fuel flag rest
    else if isFutureSectionHeader trimmed then extractAux fuel true rest
    else if shouldSkip trimmed then extractAux fuel flag rest
    else
      match matchDatePrefix trimmed with
      | none => extractAux fuel flag rest
      | some date =>
        let ar := absorb trimmed rest
        match parseCombined flag date ar.1 with
        | none => extractAux fuel flag ar.2
        | some tx => tx :: extractAux fuel flag ar.2

/-- The extractor run on one page's reconstructed lines, starting outside
the future section (the flag is a local of this function in the source). -/
def extractFromFlag (flag : Bool) (lines : List Str) : List ParsedTransaction :=
  extractAux lines.length flag lines

/-- `extractTransactionsFromLines` of the source. -/
def extractTransactionsFromLines (lines : List Str) : List ParsedTransaction :=
  extractFromFlag false lines

/-- `absorb` instrumented with provenance: alongside the combined text it
carries the list of source lines whose text has been joined into it.  The
recorded list grows exactly when (and only when) a line's text is appended
to the combined text; empty and skip-keyword lines are consumed without
being recorded, and a dated line stops the loop unconsumed, exactly as in
`absorb`. -/
def absorbAnn (combined : Str) (srcs : List Str) : List Str → (Str × List Str) × List Str
  | [] => ((combined, srcs), [])
  | l :: rest =>
    if hasAnyValue combined then ((combined, srcs), l :: rest)
    else
      let next := jsTrim l
      if next.isEmpty then absorbAnn combined srcs rest
      else if (matchDatePrefix next).isSome then ((combined, srcs), l :: rest)
      else if shouldSkip next then absorbAnn combined srcs rest
      else
        let c' := jsTrim (collapseWs (combined ++ spaceCh :: next))
        if 400 < c'.length then ((c', srcs ++ [l]), rest)
        else absorbAnn c' (srcs ++ [l]) rest

/-- `extractAux` instrumented with provenance: every candidate is paired
with the source lines whose text built its combined row — the dated base
line plus the continuation lines absorbed into it.  Erasing the
annotations gives back `extractAux` (proved below), so the pairing is a
faithful record of where each description's text originates. -/
def extractAnn : Nat → Bool → List Str → List (ParsedTransaction × List Str)
  | 0, _, _ => []
  | _, _, [] => []
  | fuel + 1, flag, l :: rest =>
    let trimmed := jsTrim l
    if trimmed.isEmpty then extractAnn fuel flag rest
    else if isFutureSectionHeader trimmed then extractAnn fuel true rest
    else if shouldSkip trimmed then extractAnn fuel flag rest
    else
      match matchDatePrefix trimmed with
      | none => extractAnn fuel flag rest
      | some date =>
        let ar := absorbAnn trimmed [l] rest
        match parseCombined flag date ar.1.1 with
        | none => extractAnn fuel flag ar.2
        | some tx => (tx, ar.1.2) :: extractAnn fuel flag ar.2

/-! ## Year resolution, year completion, deduplication (`parsePDF` tail) -/

/-- Try the full-date pattern (two digits, slash, two digits, slash, four
digits, word boundaries on both sides) anchored at the head; the caller
guarantees the left boundary.  Returns the four-digit year. -/
def yearAt (s : Str) : Option Nat :=
  match s with
  | a :: b :: c1 :: d :: e :: c2 :: g :: h :: i :: j :: rest =>
    if isDigitN a && isDigitN b && c1 == slashCh && isDigitN d && isDigitN e &&
        c2 == slashCh && isDigitN g && isDigitN h && isDigitN i && isDigitN j &&
        boundaryAt rest then
      some (digitVal g * 1000 + digitVal h * 100 + digitVal i * 10 + digitVal j)
    else none
  | _ => none

/-- Left-to-right scan for the first full-date match; the flag records
whether a word boundary holds at the current position. -/
def scanYearAux : Bool → Str → Option Nat
  | _, [] => none
  | bnd, c :: t =>
    match (if bnd then yearAt (c :: t) else none) with
    | some y => some y
    | none => scanYearAux (!isWordChar c) t

/-- `extractYearFromLines`: the year of the first full date found in the
lines, if any. -/
def extractYearFromLines : List Str → Option Nat
  | [] => none
  | l :: rest =>
    match scanYearAux true l with
    | some y => some y
    | none => extractYearFromLines rest

/-- `applyYearToDDMM` of the source: completes a DD/MM or DD/MM/YY date
with the statement year; a future-flagged DD/MM whose month/day precede
the processing day rolls one year forward. -/
def applyYearToDDMM (dateStr : Str) (year : Nat) (isFuture : Bool) (today : TodayDM) : Str :=
  let parts := jsSplitOn slashCh dateStr
  if parts.length = 3 then
    let day := parts.getD 0 []
    let month := parts.getD 1 []
    let yearShort := parts.getD 2 []
    let fullYear : Str :=
      match jsParseInt yearShort with
      | some y => intToStr (2000 + y)
      | none => strN "NaN"
    fullYear ++ hyphenCh :: (padStart2 month ++ hyphenCh :: padStart2 day)
  else if parts.length ≠ 2 then natToStr year ++ strN "-01-01"
  else
    let day := parts.getD 0 []
    let month := parts.getD 1 []
    let rolled : Bool :=
      if isFuture then
        match jsParseInt month, jsParseInt day with
        | some tm, some td =>
          decide (tm < (today.month : Int) ∨ (tm = (today.month : Int) ∧ td < (today.day : Int)))
        | _, _ => false
      else false
    (if rolled then natToStr (year + 1) else natToStr year) ++
      hyphenCh :: (padStart2 month ++ hyphenCh :: padStart2 day)

/-- Year completion of one candidate, as mapped over `allTransactions`
in `parsePDF`. -/
def applyYearTx (t : ParsedTransaction) (year : Nat) (today : TodayDM) : ParsedTransaction :=
  { t with date := applyYearToDDMM t.date year t.isFuture today }

/-- Equality on the deduplication key (date, description, value, type). -/
def quadEq (s t : ParsedTransaction) : Bool :=
  decide (s.date = t.date ∧ s.description = t.description ∧ s.value = t.value ∧
    s.type = t.type)

/-- Worker for `deduplicateTransactions`: the element at absolute index `i`
of the full list is kept exactly when `findIdx?` of its key over the full
list returns `i` (the `filter`/`findIndex` idiom of the source). -/
def dedupAux (full : List ParsedTransaction) : Nat → List ParsedTransaction → List ParsedTransaction
  | _, [] => []
  | i, t :: r =>
    if full.findIdx? (fun s => quadEq s t) = some i then t :: dedupAux full (i + 1) r
    else dedupAux full (i + 1) r

/-- `deduplicateTransactions` of the source. -/
def deduplicateTransactions (ts : List ParsedTransaction) : List ParsedTransaction :=
  dedupAux ts 0 ts

/-- Worker for the specification-style first-occurrence filter: keep a
candidate exactly when no already-kept candidate shares its key. -/
def keepFirstAux (seen : List ParsedTransaction) : List ParsedTransaction → List ParsedTransaction
  | [] => []
  | t :: r =>
    if seen.any (fun s => quadEq s t) then keepFirstAux seen r
    else t :: keepFirstAux (seen ++ [t]) r

/-- Modelled from the spec: keep the first occurrence of every
(date, description, value, type) key and drop every subsequent duplicate. -/
def keepFirstByQuad (ts : List ParsedTransaction) : List ParsedTransaction :=
  keepFirstAux [] ts

/-- The normalisation tail of `parsePDF`: year completion applied to every
candidate, then deduplication. -/
def normalizePDF (cands : List ParsedTransaction) (year : Nat) (today : TodayDM) :
    List ParsedTransaction :=
  deduplicateTransactions (cands.map (fun t => applyYearTx t year today))

/-- The candidate accumulation of `parsePDF`'s page loop: each page's lines
run through the extractor independently and the per-page results are
concatenated in page order. -/
def parseDocCandidates (pages : List (List Str)) : List ParsedTransaction :=
  (pages.map extractTransactionsFromLines).flatten

/-- Decode all pages in order; the first failing page aborts the whole
document (the thrown error propagates out of the page loop). -/
def runPages : List (Except Nat (List Str)) → Except Nat (List (List Str))
  | [] => .ok []
  | .error e :: _ => .error e
  | .ok p :: rest => (runPages rest).map (p :: ·)

/-- `parsePDF` of the source over decoded pages: page-by-page extraction,
statement-year resolution from the first page (a year of 0 is falsy in
the source's fallback), year completion and deduplication.  A page decode
failure is rethrown and no partial list is returned. -/
def parsePDFDoc (pages : List (Except Nat (List Str))) (currentYear : Nat)
    (today : TodayDM) : Except Nat (List ParsedTransaction) :=
  match runPages pages with
  | .error e => .error e
  | .ok pgs =>
    let year :=
      match pgs with
      | [] => currentYear
      | p1 :: _ =>
        match extractYearFromLines p1 with
        | some y => if y = 0 then currentYear else y
        | none => currentYear
    .ok (normalizePDF (parseDocCandidates pgs) year today)

/-! ## Status derivation (`convertPDFToTransactions`) -/

/-- Gregorian leap-year test. -/
def isLeapYear (y : Nat) : Bool :=
  decide (y % 4 = 0 ∧ (y % 100 ≠ 0 ∨ y % 400 = 0))

/-- Days in a month of the proleptic Gregorian calendar (0 for an invalid
month number). -/
def daysInMonth (y m : Nat) : Nat :=
  if m = 1 ∨ m = 3 ∨ m = 5 ∨ m = 7 ∨ m = 8 ∨ m = 10 ∨ m = 12 then 31
  else if m = 4 ∨ m = 6 ∨ m = 9 ∨ m = 11 then 30
  else if m = 2 then (if isLeapYear y then 29 else 28)
  else 0

/-- Days between 1970-01-01 and the given civil date (standard
era/year-of-era computation; exact for the year range of this model). -/
def daysFromCivil (y m d : Nat) : Int :=
  let y' : Int := if m ≤ 2 then (y : Int) - 1 else (y : Int)
  let era : Int := (if 0 ≤ y' then y' else y' - 399) / 400
  let yoe : Int := y' - era * 400
  let mp : Int := ((m : Int) + 9) % 12
  let doy : Int := (153 * mp + 2) / 5 + (d : Int) - 1
  let doe : Int := yoe * 365 + yoe / 4 - yoe / 100 + doy
  era * 146097 + doe - 719468

/-- `new Date(s)` for a date-only ISO string: exactly the shape
YYYY-MM-DD with in-range month and day yields the UTC-midnight timestamp
in milliseconds; anything else is an Invalid Date (`none`). -/
def newDateMs (s : Str) : Option Int :=
  match s with
  | [y1, y2, y3, y4, h1, m1, m2, h2, d1, d2] =>
    if isDigitN y1 && isDigitN y2 && isDigitN y3 && isDigitN y4 &&
        h1 == hyphenCh && isDigitN m1 && isDigitN m2 &&
        h2 == hyphenCh && isDigitN d1 && isDigitN d2 then
      let y := digitVal y1 * 1000 + digitVal y2 * 100 + digitVal y3 * 10 + digitVal y4
      let m := digitVal m1 * 10 + digitVal m2
      let d := digitVal d1 * 10 + digitVal d2
      if 1 ≤ m ∧ m ≤ 12 ∧ 1 ≤ d ∧ d ≤ daysInMonth y m then
        some (daysFromCivil y m d * 86400000)
      else none
    else none
  | _ => none

/-- Whether a date string parses to a timestamp strictly after the
(midnight-truncated) processing time; an Invalid Date compares false. -/
def dateStrictlyAfter (s : Str) (todayMs : Int) : Bool :=
  match newDateMs s with
  | some ms => decide (todayMs < ms)
  | none => false

/-- One row of `convertPDFToTransactions`: pending (with a due date and
not reconciled) when the row is future-flagged or dated strictly after
the processing day, completed and reconciled otherwise. -/
def convertRow (todayMs : Int) (row : ParsedTransaction) : NormalizedTransaction :=
  let isPending := row.isFuture || dateStrictlyAfter row.date todayMs
  { date := row.date, description := row.description, category := none,
    value := row.value, type := row.type,
    status := if isPending then .pending else .completed,
    dueDate := if isPending then some row.date else none,
    paymentMethod := none, isImported := true, isReconciled := !isPending }

/-- `convertPDFToTransactions` of the source. -/
def convertPDFToTransactions (todayMs : Int) (parsed : List ParsedTransaction) :
    List NormalizedTransaction :=
  parsed.map (convertRow todayMs)

/-! ## The CSV path (`parseCSV`) -/

/-- One data line of `parseCSV`: split on comma/semicolon, trim and strip
quotes, require three fields, clean and parse the value, infer the type
from the sign, and normalise a slash date. -/
def processCSVLine (line : Str) : Option ParsedRow :=
  if (jsTrim line).isEmpty then none
  else
    let parts := (jsSplitOnPred (fun c => c == commaCh || c == 59) line).map
      (fun p => stripQuotes (jsTrim p))
    if 3 ≤ parts.length then
      let dateStr := parts.getD 0 []
      let description := parts.getD 1 []
      let rawVal := parts.getD 2 []
      let valueStr := replaceFirst commaCh dotCh
        (rawVal.filter (fun c => !(c == 82 || c == 36 || isJsSpace c)))
      match jsParseFloat valueStr with
      | none => none
      | some q =>
        let value := jsAbs q
        if 0 < value then
          let isNegative := rawVal.contains hyphenCh ||
            (valueStr.head? == some hyphenCh)
          let parsedDate :=
            if dateStr.contains slashCh then
              let dparts := jsSplitOn slashCh dateStr
              let day := dparts.getD 0 []
              let month := dparts.getD 1 []
              let yr :=
                match dparts.get? 2 with
                | some y => y
                | none => strN "undefined"
              yr ++ hyphenCh :: (padStart2 month ++ hyphenCh :: padStart2 day)
            else dateStr
          some ⟨parsedDate, description,
                value, if isNegative then .expense else .income⟩
        else none
    else none

/-- `parseCSV` of the source: at least two newline-separated lines are
required; a header line (containing data/date/valor case-insensitively)
is dropped; every remaining line yields at most one row. -/
def parseCSV (content : Str) : List ParsedRow :=
  let lines := jsSplitOn newlineCh (jsTrim content)
  if lines.length < 2 then []
  else
    let header := (lines.headD []).map jsToLower
    let hasHeader := containsSub (strN "data") header ||
      containsSub (strN "date") header || containsSub (strN "valor") header
    let dataLines := if hasHeader then lines.drop 1 else lines
    dataLines.filterMap processCSVLine

/-! ## General lemmas about the embedded operations -/

/-- Inversion of `parseCombined`: a produced candidate is built from the
selected value match, with the future flag copied verbatim. -/
theorem parseCombined_eq_some {flag : Bool} {date combined : Str}
    {tx : ParsedTransaction} (h : parseCombined flag date combined = some tx) :
    ∃ v, selectValue (findValues combined) = some v ∧
      tx = { date := date,
             description := (jsTrim (collapseWs (jsTrim (jsSubstring combined date.length v.index)))).take 100,
             value := v.value,
             type := resolveType v.suffix (jsTrim (collapseWs (jsTrim (jsSubstring combined date.length v.index)))),
             isFuture := flag } := by
  unfold parseCombined at h
  cases hs : selectValue (findValues combined) with
  | none => rw [hs] at h; exact absurd h (by simp)
  | some v =>
    rw [hs] at h
    simp only at h
    split at h
    · exact absurd h (by simp)
    · exact ⟨v, rfl, (Option.some_inj.mp h).symm⟩

/-- A candidate emitted by `parseCombined` carries the section flag. -/
theorem parseCombined_isFuture {flag : Bool} {date combined : Str}
    {tx : ParsedTransaction} (h : parseCombined flag date combined = some tx) :
    tx.isFuture = flag := by
  obtain ⟨v, -, rfl⟩ := parseCombined_eq_some h
  rfl

/-! ## Claim C2: status derivation of the PDF import -/

/-- Claim C2.  Every normalized PDF-import transaction is `pending` with
`dueDate = date` exactly when its source candidate was future-flagged or its
resolved date lies strictly after the (midnight-truncated) processing time,
is `completed` with no due date otherwise, and `isReconciled` is always the
negation of pending. -/
theorem pdf_status_pending_iff :
    ∀ (todayMs : Int) (rows : List ParsedTransaction),
      convertPDFToTransactions todayMs rows = rows.map (convertRow todayMs) ∧
      ∀ row : ParsedTransaction,
        ((convertRow todayMs row).status = TxStatus.pending ↔
          (row.isFuture = true ∨ dateStrictlyAfter row.date todayMs = true)) ∧
        ((convertRow todayMs row).dueDate =
          if row.isFuture || dateStrictlyAfter row.date todayMs then some row.date else none) ∧
        ((convertRow todayMs row).isReconciled = true ↔
          ¬ (convertRow todayMs row).status = TxStatus.pending) := by
  intro todayMs rows
  refine ⟨rfl, fun row => ?_⟩
  unfold convertRow
  cases h1 : row.isFuture <;> cases h2 : dateStrictlyAfter row.date todayMs <;>
    simp [h1, h2]

/-! ## Claim C3: the explicit C/D suffix always wins -/

/-- Claim C3.  For every candidate whose selected value match carries an
explicit C or D suffix, the emitted type is income for C and expense for D,
whatever keywords the description contains: the suffix branch of
`resolveType` never consults the keyword tables. -/
theorem pdf_type_suffix_precedence :
    (∀ desc : Str, resolveType (strN "C") desc = TransactionType.income ∧
       resolveType (strN "D") desc = TransactionType.expense) ∧
    (∀ (flag : Bool) (date combined : Str) (tx : ParsedTransaction) (v : ValueMatch),
       parseCombined flag date combined = some tx →
       selectValue (findValues combined) = some v →
       (v.suffix = strN "C" → tx.type = TransactionType.income) ∧
       (v.suffix = strN "D" → tx.type = TransactionType.expense)) := by
  have hC : ∀ desc : Str, resolveType (strN "C") desc = TransactionType.income := by
    intro desc
    unfold resolveType
    rw [if_neg (by decide), if_pos (by decide)]
  have hD : ∀ desc : Str, resolveType (strN "D") desc = TransactionType.expense := by
    intro desc
    unfold resolveType
    rw [if_pos (by decide)]
  refine ⟨fun desc => ⟨hC desc, hD desc⟩, ?_⟩
  intro flag date combined tx v hp hs
  obtain ⟨v', hs', rfl⟩ := parseCombined_eq_some hp
  rw [hs] at hs'
  cases hs'
  exact ⟨fun h => by simp only [h]; exact hC _, fun h => by simp only [h]; exact hD _⟩

/-- Concrete check of claim C3's theorem: a row whose description contains
the expense keywords PAGAMENTO and TARIFA still comes out as income because
of its C suffix. -/
theorem pdf_type_suffix_precedence_check :
    (parseCombined false (strN "05/03") (strN "05/03 PAGAMENTO TARIFA 10,00C")).map
        (fun tx => tx.type) = some TransactionType.income := by
  have h := (pdf_type_suffix_precedence.2 false (strN "05/03")
    (strN "05/03 PAGAMENTO TARIFA 10,00C")
    ⟨strN "05/03", strN "PAGAMENTO TARIFA", 10, TransactionType.income, false⟩
    ⟨10, strN "C", 23⟩ (by decide) (by decide)).1 (by decide)
  have heq : parseCombined false (strN "05/03") (strN "05/03 PAGAMENTO TARIFA 10,00C") =
      some ⟨strN "05/03", strN "PAGAMENTO TARIFA", 10, TransactionType.income, false⟩ := by
    decide
  rw [heq, Option.map_some', h]

/-! ## Claims C10 and C7: the CSV path -/

/-- Claim C10.  Whenever the trimmed content splits into fewer than two
newline-separated lines, `parseCSV` returns the empty list. -/
theorem parseCSV_too_few_lines :
    ∀ content : Str, (jsSplitOn newlineCh (jsTrim content)).length < 2 →
      parseCSV content = [] := by
  intro content h
  unfold parseCSV
  simp only [if_pos h]

/-- Concrete check of claim C10's theorem: a header-less CSV of exactly one
well-formed transaction row yields zero transactions. -/
theorem parseCSV_too_few_lines_check :
    parseCSV (strN "01/02/2024;Compra material;10,00") = [] :=
  parseCSV_too_few_lines (strN "01/02/2024;Compra material;10,00") (by decide)

/-- Counterexample to claim C7 as stated: parsing the bare single-line CSV
content yields zero transactions, not one, because `parseCSV` requires at
least two newline-separated lines. -/
theorem parseCSV_single_line_scenario :
    parseCSV (strN "15/03/2024;Venda produto;150,00") = [] := by decide

/-- Claim C7 as amended.  With a header line in front, the row
15/03/2024;Venda produto;150,00 yields exactly one transaction with the ISO
date 2024-03-15, the verbatim description, the value 150 and type income
(the value field has no leading minus sign). -/
theorem parseCSV_header_scenario :
    parseCSV (strN "data;descricao;valor\n15/03/2024;Venda produto;150,00") =
      [⟨strN "2024-03-15", strN "Venda produto", 150, TransactionType.income⟩] := by
  decide

/-! ## Claim C8: a page decode failure aborts the whole document -/

/-- Any failing page makes the sequential page decode fail. -/
theorem runPages_error_of_mem :
    ∀ (pages : List (Except Nat (List Str))) (k e : Nat),
      pages.get? k = some (Except.error e) →
      ∃ e', runPages pages = Except.error e' := by
  intro pages
  induction pages with
  | nil => intro k e h; simp [List.get?] at h
  | cons p rest ih =>
    intro k e h
    match p with
    | .error e0 => exact ⟨e0, rfl⟩
    | .ok pg =>
      match k with
      | 0 => simp [List.get?] at h
      | k + 1 =>
        obtain ⟨e', he'⟩ := ih k e h
        refine ⟨e', ?_⟩
        simp [runPages, he', Except.map]

/-- Claim C8.  If any page of the document fails to decode, the whole
extraction surfaces an error to the caller and never returns a transaction
list: candidates from earlier pages are discarded. -/
theorem pdf_decode_failure_aborts :
    ∀ (pages : List (Except Nat (List Str))) (k e currentYear : Nat) (today : TodayDM),
      pages.get? k = some (Except.error e) →
      (∃ e', parsePDFDoc pages currentYear today = Except.error e') ∧
      ∀ txs, parsePDFDoc pages currentYear today ≠ Except.ok txs := by
  intro pages k e currentYear today h
  obtain ⟨e', he'⟩ := runPages_error_of_mem pages k e h
  constructor
  · exact ⟨e', by unfold parsePDFDoc; rw [he']⟩
  · intro txs hok
    unfold parsePDFDoc at hok
    rw [he'] at hok
    exact absurd hok (by simp)

/-- Concrete check of claim C8's theorem: a document whose second page fails
to decode yields no transaction list even though its first page holds a
parseable transaction row. -/
theorem pdf_decode_failure_aborts_check :
    parsePDFDoc [Except.ok [strN "10/01 TARIFA MENSAL 5,00D"], Except.error 3]
      2024 ⟨1, 1⟩ ≠ Except.ok [] :=
  (pdf_decode_failure_aborts [Except.ok [strN "10/01 TARIFA MENSAL 5,00D"], Except.error 3]
    1 3 2024 ⟨1, 1⟩ rfl).2 []

/-! ## Claim C1: future-section propagation -/

/-- Once the extractor runs with the future flag set, every candidate it
emits for the rest of the scan is future-flagged: the flag is never
cleared. -/
theorem extractAux_true_all_future :
    ∀ (fuel : Nat) (lines : List Str) (tx : ParsedTransaction),
      tx ∈ extractAux fuel true lines → tx.isFuture = true := by
  intro fuel
  induction fuel with
  | zero => intro lines tx h; simp [extractAux] at h
  | succ fuel ih =>
    intro lines tx h
    match lines with
    | [] => simp [extractAux] at h
    | l :: rest =>
      rw [extractAux] at h
      split at h
      · exact ih rest tx h
      · split at h
        · exact ih rest tx h
        · split at h
          · exact ih rest tx h
          · split at h
            · exact ih rest tx h
            · rename_i date hdate
              simp only [] at h
              split at h
              · exact ih _ tx h
              · rename_i tx' htx'
                rcases List.mem_cons.mp h with rfl | hmem
                · exact parseCombined_isFuture htx'
                · exact ih _ tx hmem

/-- Claim C1 as amended.  Within one page's scan, a nonempty
future-section header line switches the extractor into future mode, and in
future mode every emitted candidate has `isFuture = true`: the flag is
never cleared for the rest of that page.  (Because `parsePDF` runs the
extractor per page with the flag re-initialised, the flag does not persist
onto later pages — see the cross-page counterexample.) -/
theorem extract_future_flag_sticky :
    (∀ (fuel : Nat) (lines : List Str) (tx : ParsedTransaction),
       tx ∈ extractAux fuel true lines → tx.isFuture = true) ∧
    (∀ (h : Str) (rest : List Str), (jsTrim h).isEmpty = false →
       isFutureSectionHeader (jsTrim h) = true →
       extractFromFlag false (h :: rest) = extractFromFlag true rest) := by
  refine ⟨extractAux_true_all_future, ?_⟩
  intro h rest h1 h2
  show extractAux (rest.length + 1) false (h :: rest) = extractAux rest.length true rest
  rw [extractAux]
  simp only [h1, Bool.false_eq_true, if_false, h2, if_true]

/-- Concrete check of claim C1's theorem: a PREVISTOS header line flips the
page scan into future mode, and the transaction candidate then extracted is
future-flagged. -/
theorem extract_future_flag_sticky_check :
    extractFromFlag false [strN "PREVISTOS", strN "03/02 TARIFA MENSAL 7,00D"] =
      extractFromFlag true [strN "03/02 TARIFA MENSAL 7,00D"] ∧
    ∀ tx ∈ extractFromFlag false [strN "PREVISTOS", strN "03/02 TARIFA MENSAL 7,00D"],
      tx.isFuture = true := by
  have he := extract_future_flag_sticky.2 (strN "PREVISTOS")
    [strN "03/02 TARIFA MENSAL 7,00D"] (by decide) (by decide)
  refine ⟨he, ?_⟩
  intro tx hm
  rw [he] at hm
  exact extract_future_flag_sticky.1 _ _ tx hm

/-- Counterexample to claim C1 as stated: a future-section header on one
page does not mark candidates of later pages, because the flag is local to
each page's extraction.  Here the header is seen on page one, yet the
candidate parsed from page two comes out with `isFuture = false`. -/
theorem extract_future_flag_not_cross_page :
    isFutureSectionHeader (jsTrim (strN "LANCAMENTOS FUTUROS")) = true ∧
    parseDocCandidates [[strN "LANCAMENTOS FUTUROS"], [strN "03/02 TARIFA MANUTENCAO 7,00D"]] =
      [⟨strN "03/02", strN "TARIFA MANUTENCAO", 7, TransactionType.expense, false⟩] := by
  decide

/-! ## Claims C4 and C9: deduplication -/

/-- The deduplication key relation is reflexive. -/
theorem quadEq_refl (t : ParsedTransaction) : quadEq t t = true := by
  simp [quadEq]

/-- The deduplication key relation is transitive. -/
theorem quadEq_trans {a b c : ParsedTransaction}
    (h1 : quadEq a b = true) (h2 : quadEq b c = true) : quadEq a c = true := by
  simp only [quadEq, decide_eq_true_eq] at h1 h2 ⊢
  obtain ⟨x1, x2, x3, x4⟩ := h1
  obtain ⟨y1, y2, y3, y4⟩ := h2
  exact ⟨x1.trans y1, x2.trans y2, x3.trans y3, x4.trans y4⟩

/-- `findIdx?` over a decomposed list returns the pivot's index exactly
when the predicate fails on the whole prefix (the predicate holding at the
pivot). -/
theorem findIdx?_eq_iff {α : Type} (p : α → Bool) :
    ∀ (pre : List α) (t : α) (r : List α) (i : Nat), p t = true →
      (List.findIdx? p (pre ++ t :: r) i = some (i + pre.length) ↔
        ∀ s ∈ pre, p s = false) := by
  intro pre
  induction pre with
  | nil =>
    intro t r i hp
    simp [List.findIdx?_cons, hp]
  | cons a pre' ih =>
    intro t r i hp
    rw [List.cons_append, List.findIdx?_cons]
    by_cases ha : p a = true
    · rw [if_pos ha]
      constructor
      · intro h
        have : i = i + (pre'.length + 1) := by
          simpa [List.length_cons] using Option.some_inj.mp h
        omega
      · intro h
        exact absurd ha (by simp [h a (by simp)])
    · rw [if_neg ha]
      have := ih t r (i + 1) hp
      constructor
      · intro h
        intro s hs
        rcases List.mem_cons.mp hs with rfl | hs'
        · exact Bool.eq_false_iff.mpr ha
        · refine (this.mp ?_) s hs'
          rw [h]
          congr 1
          simp [List.length_cons]
          omega
      · intro h
        have h' := this.mpr (fun s hs => h s (List.mem_cons_of_mem a hs))
        rw [h']
        congr 1
        simp [List.length_cons]
        omega

/-- `keepFirstAux` only consults the seen-accumulator through key
coverage, so two accumulators covering the same keys are interchangeable. -/
theorem keepFirstAux_congr :
    ∀ (r : List ParsedTransaction) (seen1 seen2 : List ParsedTransaction),
      (∀ u, seen1.any (fun s => quadEq s u) = seen2.any (fun s => quadEq s u)) →
      keepFirstAux seen1 r = keepFirstAux seen2 r := by
  intro r
  induction r with
  | nil => intro _ _ _; rfl
  | cons t r ih =>
    intro seen1 seen2 hcov
    rw [keepFirstAux, keepFirstAux, hcov t]
    by_cases h : seen2.any (fun s => quadEq s t) = true
    · rw [if_pos h, if_pos h]
      exact ih seen1 seen2 hcov
    · rw [if_neg h, if_neg h]
      congr 1
      refine ih _ _ (fun u => ?_)
      rw [List.any_append, List.any_append, hcov u]

/-- Appending an already-covered element to the seen-accumulator changes
nothing. -/
theorem keepFirstAux_covered :
    ∀ (r seen : List ParsedTransaction) (t : ParsedTransaction),
      (∃ s ∈ seen, quadEq s t = true) →
      keepFirstAux (seen ++ [t]) r = keepFirstAux seen r := by
  intro r seen t ⟨s, hs, hst⟩
  refine keepFirstAux_congr r _ _ (fun u => ?_)
  rw [List.any_append]
  by_cases h : quadEq t u = true
  · have : seen.any (fun s => quadEq s u) = true :=
      List.any_eq_true.mpr ⟨s, hs, quadEq_trans hst h⟩
    simp [this]
  · simp [List.any_cons, Bool.eq_false_iff.mpr h]

/-- The source's `filter`/`findIndex` idiom computes the first-occurrence
filter. -/
theorem dedupAux_eq_keepFirstAux :
    ∀ (r pre : List ParsedTransaction),
      dedupAux (pre ++ r) pre.length r = keepFirstAux pre r := by
  intro r
  induction r with
  | nil => intro pre; rfl
  | cons t r ih =>
    intro pre
    rw [dedupAux, keepFirstAux]
    have hiff := findIdx?_eq_iff (fun s => quadEq s t) pre t r 0 (quadEq_refl t)
    rw [Nat.zero_add] at hiff
    have hrw : pre ++ t :: r = (pre ++ [t]) ++ r := by simp
    by_cases hall : ∀ s ∈ pre, quadEq s t = false
    · have hidx : List.findIdx? (fun s => quadEq s t) (pre ++ t :: r) = some pre.length :=
        hiff.mpr hall
      rw [if_pos hidx]
      have hany : pre.any (fun s => quadEq s t) = false := List.any_eq_false.mpr (by
        intro s hs
        simp [hall s hs])
      rw [hany]
      simp only [Bool.false_eq_true, if_false]
      congr 1
      have := ih (pre ++ [t])
      rw [List.append_assoc] at this
      simpa [List.length_append] using this
    · have hidx : ¬ List.findIdx? (fun s => quadEq s t) (pre ++ t :: r) = some pre.length := by
        intro hc
        exact hall (hiff.mp hc)
      rw [if_neg hidx]
      have hex : ∃ s ∈ pre, quadEq s t = true := by
        by_contra hc
        push_neg at hc
        exact hall (fun s hs => Bool.eq_false_iff.mpr (hc s hs))
      have hany : pre.any (fun s => quadEq s t) = true :=
        List.any_eq_true.mpr hex
      rw [hany]
      simp only [if_true]
      rw [← keepFirstAux_covered r pre t hex]
      have := ih (pre ++ [t])
      rw [List.append_assoc] at this
      simpa [List.length_append] using this

/-- `deduplicateTransactions` is the first-occurrence filter on the
(date, description, value, type) key. -/
theorem dedup_eq_keepFirst (ts : List ParsedTransaction) :
    deduplicateTransactions ts = keepFirstByQuad ts := by
  have := dedupAux_eq_keepFirstAux ts []
  simpa [deduplicateTransactions, keepFirstByQuad] using this

/-- Running the first-occurrence filter over its own output with the same
accumulator changes nothing. -/
theorem keepFirstAux_idem :
    ∀ (r seen : List ParsedTransaction),
      keepFirstAux seen (keepFirstAux seen r) = keepFirstAux seen r := by
  intro r
  induction r with
  | nil => intro seen; rfl
  | cons t r ih =>
    intro seen
    rw [keepFirstAux]
    by_cases h : seen.any (fun s => quadEq s t) = true
    · rw [if_pos h]
      exact ih seen
    · rw [if_neg h, keepFirstAux, if_neg h]
      congr 1
      exact ih (seen ++ [t])

/-- Claim C9.  Deduplication is idempotent: applying it to its own output
returns that output unchanged. -/
theorem dedup_idempotent (ts : List ParsedTransaction) :
    deduplicateTransactions (deduplicateTransactions ts) = deduplicateTransactions ts := by
  rw [dedup_eq_keepFirst ts, dedup_eq_keepFirst (keepFirstByQuad ts)]
  exact keepFirstAux_idem ts []

/-- Claim C4.  Deduplication keeps exactly the first occurrence of every
(date, description, value, type) quadruple and drops every later duplicate;
and because `parsePDF` runs it after year completion, two candidates with
equal raw DD/MM dates whose completed dates differ both survive. -/
theorem dedup_quad_first_occurrence :
    (∀ ts, deduplicateTransactions ts = keepFirstByQuad ts) ∧
    (∀ (a b : ParsedTransaction) (year : Nat) (today : TodayDM),
       a.date = b.date →
       (applyYearTx a year today).date ≠ (applyYearTx b year today).date →
       normalizePDF [a, b] year today =
         [applyYearTx a year today, applyYearTx b year today]) := by
  refine ⟨dedup_eq_keepFirst, ?_⟩
  intro a b year today _ hdates
  have hq : quadEq (applyYearTx a year today) (applyYearTx b year today) = false := by
    simp only [quadEq, decide_eq_false_iff_not]
    intro hc
    exact hdates hc.1
  rw [normalizePDF]
  simp only [List.map_cons, List.map_nil]
  rw [dedup_eq_keepFirst]
  rw [keepFirstByQuad, keepFirstAux, List.any_nil]
  simp only [Bool.false_eq_true, if_false]
  rw [keepFirstAux, List.nil_append, List.any_cons, List.any_nil, hq]
  simp [keepFirstAux]

/-- Concrete check of claim C4's theorem: the same raw row once in the
regular section and once in the future section (where the year rolls
forward) completes to two different dates and survives deduplication as
two transactions. -/
theorem dedup_quad_first_occurrence_check :
    normalizePDF
      [⟨strN "10/01", strN "TARIFA", 5, TransactionType.expense, false⟩,
       ⟨strN "10/01", strN "TARIFA", 5, TransactionType.expense, true⟩] 2025 ⟨10, 11⟩ =
      [⟨strN "2025-01-10", strN "TARIFA", 5, TransactionType.expense, false⟩,
       ⟨strN "2026-01-10", strN "TARIFA", 5, TransactionType.expense, true⟩] := by
  have h := dedup_quad_first_occurrence.2
    ⟨strN "10/01", strN "TARIFA", 5, TransactionType.expense, false⟩
    ⟨strN "10/01", strN "TARIFA", 5, TransactionType.expense, true⟩
    2025 ⟨10, 11⟩ (by decide) (by decide)
  rw [h]
  decide

/-! ## Claim C6: skip-list exclusion -/

/-- The empty needle occurs in every haystack. -/
theorem containsSub_nil_left : ∀ s : Str, containsSub [] s = true := by
  intro s
  cases s with
  | nil => rfl
  | cons c t => simp [containsSub, startsWithSeq]

/-- Occurrence is preserved by extending the haystack on the left. -/
theorem containsSub_cons_of {n t : Str} (c : Nat) (h : containsSub n t = true) :
    containsSub n (c :: t) = true := by
  rw [containsSub, h, Bool.or_true]

/-- A needle leading a truncated haystack leads the haystack. -/
theorem startsWithSeq_of_take :
    ∀ (n : Str) (k : Nat) (s : Str), startsWithSeq n (s.take k) = true →
      startsWithSeq n s = true := by
  intro n
  induction n with
  | nil => intro k s _; rfl
  | cons a n' ih =>
    intro k s h
    match k, s with
    | 0, _ => simp [startsWithSeq] at h
    | k' + 1, [] => simp [startsWithSeq] at h
    | k' + 1, b :: t =>
      rw [List.take_succ_cons, startsWithSeq, Bool.and_eq_true] at h
      rw [startsWithSeq, Bool.and_eq_true]
      exact ⟨h.1, ih k' t h.2⟩

/-- Occurrence in a prefix gives occurrence in the whole. -/
theorem containsSub_of_take :
    ∀ (s : Str) (k : Nat) (n : Str), containsSub n (s.take k) = true →
      containsSub n s = true := by
  intro s
  induction s with
  | nil => intro k n h; simpa using h
  | cons c t ih =>
    intro k n h
    match k with
    | 0 =>
      simp only [List.take_zero] at h
      cases n with
      | nil => exact containsSub_nil_left _
      | cons a n' => simp [containsSub] at h
    | k' + 1 =>
      rw [List.take_succ_cons, containsSub, Bool.or_eq_true] at h
      rcases h with h | h
      · rw [containsSub, Bool.or_eq_true]
        exact Or.inl (startsWithSeq_of_take n (k' + 1) (c :: t) (by simpa using h))
      · exact containsSub_cons_of c (ih k' n h)

/-- Occurrence in a suffix gives occurrence in the whole. -/
theorem containsSub_of_drop :
    ∀ (s : Str) (k : Nat) (n : Str), containsSub n (s.drop k) = true →
      containsSub n s = true := by
  intro s
  induction s with
  | nil => intro k n h; simpa using h
  | cons c t ih =>
    intro k n h
    match k with
    | 0 => exact h
    | k' + 1 => exact containsSub_cons_of c (ih k' n h)

/-- Occurrence after dropping a whitespace prefix gives occurrence in the
whole. -/
theorem containsSub_of_dropWhile :
    ∀ (s : Str) (p : Nat → Bool) (n : Str), containsSub n (s.dropWhile p) = true →
      containsSub n s = true := by
  intro s p
  induction s with
  | nil => intro n h; simpa using h
  | cons c t ih =>
    intro n h
    rw [List.dropWhile_cons] at h
    by_cases hc : p c = true
    · rw [if_pos hc] at h
      exact containsSub_cons_of c (ih n h)
    · rw [if_neg hc] at h
      exact h

/-- A needle leading the end-trimmed haystack leads the haystack. -/
theorem startsWithSeq_of_trimEnd :
    ∀ (s n : Str), startsWithSeq n (trimEndWs s) = true → startsWithSeq n s = true := by
  intro s
  induction s with
  | nil => intro n h; simpa [trimEndWs] using h
  | cons c t ih =>
    intro n h
    rw [trimEndWs] at h
    cases htr : trimEndWs t with
    | nil =>
      rw [htr] at h
      by_cases hsp : isJsSpace c = true
      · rw [if_pos hsp] at h
        cases n with
        | nil => rfl
        | cons a n' => simp [startsWithSeq] at h
      · rw [if_neg hsp] at h
        cases n with
        | nil => rfl
        | cons a n' =>
          rw [startsWithSeq, Bool.and_eq_true] at h ⊢
          refine ⟨h.1, ?_⟩
          cases n' with
          | nil => rfl
          | cons b n'' => simp [startsWithSeq] at h
    | cons d r =>
      rw [htr] at h
      cases n with
      | nil => rfl
      | cons a n' =>
        rw [startsWithSeq, Bool.and_eq_true] at h ⊢
        exact ⟨h.1, ih n' (htr ▸ h.2)⟩

/-- Occurrence in the end-trimmed haystack gives occurrence in the whole. -/
theorem containsSub_of_trimEnd :
    ∀ (s n : Str), containsSub n (trimEndWs s) = true → containsSub n s = true := by
  intro s
  induction s with
  | nil => intro n h; simpa [trimEndWs] using h
  | cons c t ih =>
    intro n h
    rw [trimEndWs] at h
    cases htr : trimEndWs t with
    | nil =>
      rw [htr] at h
      by_cases hsp : isJsSpace c = true
      · rw [if_pos hsp] at h
        cases n with
        | nil => exact containsSub_nil_left _
        | cons a n' => simp [containsSub] at h
      · rw [if_neg hsp] at h
        cases n with
        | nil => exact containsSub_nil_left _
        | cons a n' =>
          rw [containsSub, Bool.or_eq_true] at h ⊢
          rcases h with h | h
          · rw [startsWithSeq, Bool.and_eq_true] at h ⊢
            refine Or.inl ⟨h.1, ?_⟩
            cases n' with
            | nil => rfl
            | cons b n'' => simp [startsWithSeq] at h
          · simp [containsSub] at h
    | cons d r =>
      rw [htr] at h
      rw [containsSub, Bool.or_eq_true] at h
      rcases h with h | h
      · rw [containsSub, Bool.or_eq_true]
        refine Or.inl ?_
        exact startsWithSeq_of_trimEnd (c :: t) n (by rw [trimEndWs, htr]; exact h)
      · exact containsSub_cons_of c (ih n (htr ▸ h))

/-- Occurrence in the trimmed haystack gives occurrence in the whole. -/
theorem containsSub_of_jsTrim {s n : Str} (h : containsSub n (jsTrim s) = true) :
    containsSub n s = true :=
  containsSub_of_dropWhile s isJsSpace n (containsSub_of_trimEnd _ n h)

/-- A needle with no whitespace character that leads a haystack with a
space at the junction leads its left piece. -/
theorem startsWithSeq_split_at_space :
    ∀ (x n : Str) (y : Str), n.all (fun c => !isJsSpace c) = true →
      startsWithSeq n (x ++ spaceCh :: y) = true → startsWithSeq n x = true := by
  intro x
  induction x with
  | nil =>
    intro n y hns h
    cases n with
    | nil => rfl
    | cons a n' =>
      rw [List.nil_append, startsWithSeq, Bool.and_eq_true] at h
      have ha : a = spaceCh := by simpa using h.1
      have := (List.all_eq_true.mp hns) a (by simp)
      rw [ha] at this
      simp [isJsSpace, spaceCh] at this
  | cons c x' ih =>
    intro n y hns h
    cases n with
    | nil => rfl
    | cons a n' =>
      rw [List.cons_append, startsWithSeq, Bool.and_eq_true] at h
      rw [startsWithSeq, Bool.and_eq_true]
      refine ⟨h.1, ih n' y ?_ h.2⟩
      exact List.all_eq_true.mpr (fun b hb => (List.all_eq_true.mp hns) b (by simp [hb]))

/-- A space-free needle occurring in a space-joined concatenation occurs in
one of the two pieces. -/
theorem containsSub_split_at_space :
    ∀ (a : Str) (n b : Str), n.all (fun c => !isJsSpace c) = true →
      containsSub n (a ++ spaceCh :: b) = true →
      containsSub n a = true ∨ containsSub n b = true := by
  intro a
  induction a with
  | nil =>
    intro n b hns h
    rw [List.nil_append, containsSub, Bool.or_eq_true] at h
    rcases h with h | h
    · cases n with
      | nil => exact Or.inl (containsSub_nil_left _)
      | cons x n' =>
        rw [startsWithSeq, Bool.and_eq_true] at h
        have hx : x = spaceCh := by simpa using h.1
        have := (List.all_eq_true.mp hns) x (by simp)
        rw [hx] at this
        simp [isJsSpace, spaceCh] at this
    · exact Or.inr h
  | cons c a' ih =>
    intro n b hns h
    rw [List.cons_append, containsSub, Bool.or_eq_true] at h
    rcases h with h | h
    · left
      rw [containsSub, Bool.or_eq_true]
      left
      exact startsWithSeq_split_at_space (c :: a') n b hns (by simpa using h)
    · rcases ih n b hns h with h' | h'
      · exact Or.inl (containsSub_cons_of c h')
      · exact Or.inr h'

/-- A space-free needle leading the collapsed haystack (scanned outside a
whitespace run) leads the haystack. -/
theorem startsWithSeq_of_collapse :
    ∀ (s n : Str), n.all (fun c => !isJsSpace c) = true →
      startsWithSeq n (collapseWsAux false s) = true → startsWithSeq n s = true := by
  intro s
  induction s with
  | nil => intro n _ h; simpa [collapseWsAux] using h
  | cons c t ih =>
    intro n hns h
    rw [collapseWsAux] at h
    simp only [Bool.false_eq_true, if_false] at h
    by_cases hsp : isJsSpace c = true
    · rw [if_pos hsp] at h
      cases n with
      | nil => rfl
      | cons a n' =>
        rw [startsWithSeq, Bool.and_eq_true] at h
        have ha : a = spaceCh := by simpa using h.1
        have := (List.all_eq_true.mp hns) a (by simp)
        rw [ha] at this
        simp [isJsSpace, spaceCh] at this
    · rw [if_neg hsp] at h
      cases n with
      | nil => rfl
      | cons a n' =>
        rw [startsWithSeq, Bool.and_eq_true] at h ⊢
        refine ⟨h.1, ih n' ?_ h.2⟩
        exact List.all_eq_true.mpr (fun b hb => (List.all_eq_true.mp hns) b (by simp [hb]))

/-- A space-free needle occurring in the collapsed haystack occurs in the
haystack. -/
theorem containsSub_of_collapse :
    ∀ (s : Str) (prev : Bool) (n : Str), n.all (fun c => !isJsSpace c) = true →
      containsSub n (collapseWsAux prev s) = true → containsSub n s = true := by
  intro s
  induction s with
  | nil => intro prev n _ h; simpa [collapseWsAux] using h
  | cons c t ih =>
    intro prev n hns h
    rw [collapseWsAux] at h
    by_cases hsp : isJsSpace c = true
    · rw [if_pos hsp] at h
      by_cases hprev : prev = true
      · rw [if_pos hprev] at h
        exact containsSub_cons_of c (ih true n hns h)
      · rw [if_neg hprev] at h
        rw [containsSub, Bool.or_eq_true] at h
        rcases h with h | h
        · cases n with
          | nil => exact containsSub_nil_left _
          | cons a n' =>
            rw [startsWithSeq, Bool.and_eq_true] at h
            have ha : a = spaceCh := by simpa using h.1
            have := (List.all_eq_true.mp hns) a (by simp)
            rw [ha] at this
            simp [isJsSpace, spaceCh] at this
        · exact containsSub_cons_of c (ih true n hns h)
    · rw [if_neg hsp] at h
      rw [containsSub, Bool.or_eq_true] at h
      rcases h with h | h
      · cases n with
        | nil => exact containsSub_nil_left _
        | cons a n' =>
          rw [startsWithSeq, Bool.and_eq_true] at h
          rw [containsSub, Bool.or_eq_true]
          left
          rw [startsWithSeq, Bool.and_eq_true]
          refine ⟨h.1, startsWithSeq_of_collapse t n' ?_ h.2⟩
          exact List.all_eq_true.mpr (fun b hb => (List.all_eq_true.mp hns) b (by simp [hb]))
      · exact containsSub_cons_of c (ih false n hns h)

/-- No skip keyword occurs (case-insensitively) in a string. -/
def noSkipKw (s : Str) : Prop :=
  ∀ kw ∈ skipKeywordList, containsSub kw (s.map jsToUpper) = false

/-- Every skip keyword is free of whitespace characters. -/
theorem skipKw_space_free : ∀ kw ∈ skipKeywordList, kw.all (fun c => !isJsSpace c) = true := by
  decide

/-- Uppercasing preserves whitespace-ness. -/
theorem isJsSpace_up (c : Nat) : isJsSpace (jsToUpper c) = isJsSpace c := by
  unfold jsToUpper
  split
  · rename_i h
    simp only [isJsSpace, decide_eq_decide]
    omega
  · rfl

/-- Uppercasing commutes with dropping a whitespace prefix. -/
theorem map_up_dropWhile (s : Str) :
    (s.dropWhile isJsSpace).map jsToUpper = (s.map jsToUpper).dropWhile isJsSpace := by
  induction s with
  | nil => rfl
  | cons c t ih =>
    rw [List.map_cons, List.dropWhile_cons, List.dropWhile_cons, isJsSpace_up]
    by_cases h : isJsSpace c = true
    · rw [if_pos h, if_pos h]
      exact ih
    · rw [if_neg h, if_neg h, List.map_cons]

/-- Uppercasing commutes with trimming trailing whitespace. -/
theorem map_up_trimEnd (s : Str) :
    (trimEndWs s).map jsToUpper = trimEndWs (s.map jsToUpper) := by
  induction s with
  | nil => rfl
  | cons c t ih =>
    rw [List.map_cons, trimEndWs, trimEndWs]
    cases htr : trimEndWs t with
    | nil =>
      rw [htr] at ih
      rw [← ih]
      simp only [List.map_nil]
      rw [isJsSpace_up]
      by_cases h : isJsSpace c = true
      · rw [if_pos h, if_pos h, List.map_nil]
      · rw [if_neg h, if_neg h, List.map_cons, List.map_nil]
    | cons d r =>
      rw [htr] at ih
      rw [← ih]
      simp only [List.map_cons]

/-- Uppercasing commutes with `trim`. -/
theorem map_up_trim (s : Str) :
    (jsTrim s).map jsToUpper = jsTrim (s.map jsToUpper) := by
  rw [jsTrim, jsTrim, map_up_trimEnd, map_up_dropWhile]

/-- Uppercasing commutes with whitespace collapsing. -/
theorem map_up_collapse (s : Str) :
    ∀ prev, (collapseWsAux prev s).map jsToUpper = collapseWsAux prev (s.map jsToUpper) := by
  induction s with
  | nil => intro prev; rfl
  | cons c t ih =>
    intro prev
    rw [List.map_cons, collapseWsAux, collapseWsAux, isJsSpace_up]
    by_cases h : isJsSpace c = true
    · rw [if_pos h, if_pos h]
      by_cases hp : prev = true
      · rw [if_pos hp, if_pos hp]
        exact ih true
      · rw [if_neg hp, if_neg hp, List.map_cons, ih true]
        rfl
    · rw [if_neg h, if_neg h, List.map_cons, ih false]

/-- A line not skipped by the keyword filter contains no skip keyword. -/
theorem noSkipKw_of_not_skipped {s : Str} (h : shouldSkip s = false) : noSkipKw s := by
  intro kw hkw
  by_contra hc
  have hc' : containsSub kw (s.map jsToUpper) = true := Bool.ne_false_iff.mp hc
  have : shouldSkip s = true := List.any_eq_true.mpr ⟨kw, hkw, hc'⟩
  rw [h] at this
  exact absurd this (by simp)

/-- Joining two keyword-free strings with a space keeps them keyword-free. -/
theorem noSkipKw_join {a b : Str} (ha : noSkipKw a) (hb : noSkipKw b) :
    noSkipKw (a ++ spaceCh :: b) := by
  intro kw hkw
  by_contra hc
  have hc' := Bool.ne_false_iff.mp hc
  rw [List.map_append, List.map_cons] at hc'
  have hsp : jsToUpper spaceCh = spaceCh := by decide
  rw [hsp] at hc'
  rcases containsSub_split_at_space (a.map jsToUpper) kw (b.map jsToUpper)
      (skipKw_space_free kw hkw) hc' with h | h
  · rw [ha kw hkw] at h; exact absurd h (by simp)
  · rw [hb kw hkw] at h; exact absurd h (by simp)

/-- Whitespace collapsing keeps a string keyword-free. -/
theorem noSkipKw_collapse {s : Str} (h : noSkipKw s) : noSkipKw (collapseWs s) := by
  intro kw hkw
  by_contra hc
  have hc' := Bool.ne_false_iff.mp hc
  rw [collapseWs, map_up_collapse] at hc'
  have := containsSub_of_collapse (s.map jsToUpper) false kw (skipKw_space_free kw hkw) hc'
  rw [h kw hkw] at this
  exact absurd this (by simp)

/-- Trimming keeps a string keyword-free. -/
theorem noSkipKw_trim {s : Str} (h : noSkipKw s) : noSkipKw (jsTrim s) := by
  intro kw hkw
  by_contra hc
  have hc' := Bool.ne_false_iff.mp hc
  rw [map_up_trim] at hc'
  have := containsSub_of_jsTrim hc'
  rw [h kw hkw] at this
  exact absurd this (by simp)

/-- Any `substring` of a keyword-free string is keyword-free. -/
theorem noSkipKw_substring {s : Str} (h : noSkipKw s) (a b : Nat) :
    noSkipKw (jsSubstring s a b) := by
  intro kw hkw
  by_contra hc
  have hc' := Bool.ne_false_iff.mp hc
  rw [jsSubstring] at hc'
  simp only [List.map_drop, List.map_take] at hc'
  have := containsSub_of_take _ _ kw (containsSub_of_drop _ _ kw hc')
  rw [h kw hkw] at this
  exact absurd this (by simp)

/-- Any prefix of a keyword-free string is keyword-free. -/
theorem noSkipKw_take {s : Str} (h : noSkipKw s) (k : Nat) : noSkipKw (s.take k) := by
  intro kw hkw
  by_contra hc
  have hc' := Bool.ne_false_iff.mp hc
  rw [List.map_take] at hc'
  have := containsSub_of_take _ _ kw hc'
  rw [h kw hkw] at this
  exact absurd this (by simp)

/-- The multi-line absorption loop only ever appends lines that pass the
keyword filter, so its combined text stays keyword-free. -/
theorem noSkipKw_absorb :
    ∀ (rest : List Str) (combined : Str), noSkipKw combined →
      noSkipKw (absorb combined rest).1 := by
  intro rest
  induction rest with
  | nil => intro combined h; exact h
  | cons l rest ih =>
    intro combined h
    rw [absorb]
    by_cases h1 : hasAnyValue combined = true
    · rw [if_pos h1]; exact h
    · rw [if_neg h1]
      simp only []
      by_cases h2 : (jsTrim l).isEmpty = true
      · rw [if_pos h2]; exact ih combined h
      · rw [if_neg h2]
        by_cases h3 : (matchDatePrefix (jsTrim l)).isSome = true
        · rw [if_pos h3]; exact h
        · rw [if_neg h3]
          by_cases h4 : shouldSkip (jsTrim l) = true
          · rw [if_pos h4]; exact ih combined h
          · rw [if_neg h4]
            have hnext : noSkipKw (jsTrim l) := noSkipKw_of_not_skipped
              (Bool.eq_false_iff.mpr h4)
            have hc' : noSkipKw (jsTrim (collapseWs (combined ++ spaceCh :: jsTrim l))) :=
              noSkipKw_trim (noSkipKw_collapse (noSkipKw_join h hnext))
            by_cases h5 : 400 < (jsTrim (collapseWs (combined ++ spaceCh :: jsTrim l))).length
            · rw [if_pos h5]; exact hc'
            · rw [if_neg h5]; exact ih _ hc'

/-- A candidate built from keyword-free combined text has a keyword-free
description. -/
theorem parseCombined_noSkipKw {flag : Bool} {date combined : Str}
    {tx : ParsedTransaction} (hp : parseCombined flag date combined = some tx)
    (h : noSkipKw combined) : noSkipKw tx.description := by
  obtain ⟨v, -, rfl⟩ := parseCombined_eq_some hp
  exact noSkipKw_take (noSkipKw_trim (noSkipKw_collapse (noSkipKw_trim
    (noSkipKw_substring h date.length v.index)))) 100

/-- Every candidate the extractor emits has a keyword-free description. -/
theorem extractAux_noSkipKw :
    ∀ (fuel : Nat) (flag : Bool) (lines : List Str) (tx : ParsedTransaction),
      tx ∈ extractAux fuel flag lines → noSkipKw tx.description := by
  intro fuel
  induction fuel with
  | zero => intro flag lines tx h; simp [extractAux] at h
  | succ fuel ih =>
    intro flag lines tx h
    match lines with
    | [] => simp [extractAux] at h
    | l :: rest =>
      rw [extractAux] at h
      split at h
      · exact ih flag rest tx h
      · split at h
        · exact ih true rest tx h
        · split at h
          · exact ih flag rest tx h
          · split at h
            · exact ih flag rest tx h
            · rename_i hne hnh hns date hdate
              simp only [] at h
              split at h
              · exact ih flag _ tx h
              · rename_i tx' htx'
                rcases List.mem_cons.mp h with rfl | hmem
                · have htrimmed : noSkipKw (jsTrim l) := by
                    refine noSkipKw_of_not_skipped (Bool.eq_false_iff.mpr ?_)
                    assumption
                  exact parseCombined_noSkipKw htx' (noSkipKw_absorb rest (jsTrim l) htrimmed)
                · exact ih flag _ tx hmem

/-! ## Claim C5: year completion -/

/-- The fuelled decimal rendering does not depend on the fuel, provided
there is enough of it. -/
theorem natToStrAux_irrel : ∀ (n f g : Nat), n < f → n < g →
    natToStrAux f n = natToStrAux g n := by
  intro n
  induction n using Nat.strong_induction_on with
  | _ n ih =>
    intro f g hf hg
    match f, g with
    | f' + 1, g' + 1 =>
      rw [natToStrAux, natToStrAux]
      by_cases h : n < 10
      · rw [if_pos h, if_pos h]
      · rw [if_neg h, if_neg h]
        have hdiv : n / 10 < n := Nat.div_lt_self (by omega) (by omega)
        rw [ih (n / 10) hdiv f' g' (by omega) (by omega)]

/-- Peeling the last decimal digit off the rendering of a number of at
least two digits. -/
theorem natToStr_step {y : Nat} (h : 10 ≤ y) :
    natToStr y = natToStr (y / 10) ++ [48 + y % 10] := by
  rw [natToStr, natToStrAux, if_neg (by omega), natToStr]
  have hdiv : y / 10 < y := Nat.div_lt_self (by omega) (by omega)
  rw [natToStrAux_irrel (y / 10) y (y / 10 + 1) (by omega) (by omega)]

/-- The decimal rendering of a four-digit year, digit by digit. -/
theorem natToStr_four {y : Nat} (h1 : 1000 ≤ y) (h2 : y ≤ 9999) :
    natToStr y = [48 + y / 1000, 48 + y / 100 % 10, 48 + y / 10 % 10, 48 + y % 10] := by
  have s1 : natToStr y = natToStr (y / 10) ++ [48 + y % 10] := natToStr_step (by omega)
  have s2 : natToStr (y / 10) = natToStr (y / 100) ++ [48 + y / 10 % 10] := by
    rw [natToStr_step (by omega), Nat.div_div_eq_div_mul]
  have s3 : natToStr (y / 100) = natToStr (y / 1000) ++ [48 + y / 100 % 10] := by
    rw [natToStr_step (by omega), Nat.div_div_eq_div_mul]
  have s4 : natToStr (y / 1000) = [48 + y / 1000] := by
    rw [natToStr, natToStrAux, if_pos (by omega)]
  rw [s1, s2, s3, s4]
  simp

/-- Splitting a DD/MM code-point list on the slash. -/
theorem jsSplitOn_ddmm {d1 d2 m1 m2 : Nat}
    (hd1 : isDigitN d1 = true) (hd2 : isDigitN d2 = true)
    (hm1 : isDigitN m1 = true) (hm2 : isDigitN m2 = true) :
    jsSplitOn slashCh [d1, d2, slashCh, m1, m2] = [[d1, d2], [m1, m2]] := by
  simp only [isDigitN, decide_eq_true_eq] at hd1 hd2 hm1 hm2
  have h1 : ¬ (d1 = slashCh) := by simp only [slashCh]; omega
  have h2 : ¬ (d2 = slashCh) := by simp only [slashCh]; omega
  have h3 : ¬ (m1 = slashCh) := by simp only [slashCh]; omega
  have h4 : ¬ (m2 = slashCh) := by simp only [slashCh]; omega
  simp [jsSplitOn, h1, h2, h3, h4]

/-- Counterexample to claim C5 as stated: year completion performs no
calendar validation, so the DD/MM candidate 29/02 completed with the
resolved year 2023 yields 2023-02-29, which is not a valid calendar date
(2023 is not a leap year); moreover a future-flagged DD/MM whose month/day
precede the processing day is completed with year + 1, not the resolved
year itself. -/
theorem applyYear_invalid_calendar_output :
    applyYearToDDMM (strN "29/02") 2023 false ⟨10, 11⟩ = strN "2023-02-29" ∧
    newDateMs (strN "2023-02-29") = none ∧
    applyYearToDDMM (strN "12/01") 2025 true ⟨10, 11⟩ = strN "2026-01-12" := by
  refine ⟨by decide, by decide, by decide⟩

/-- Claim C5 as amended.  For every DD/MM candidate (two digit characters,
slash, two digit characters) and four-digit resolved year, completion of a
candidate that is not future-flagged outputs exactly the string Y-MM-DD
with the digits carried over verbatim; and that output is a valid calendar
date if and only if the DD/MM pair denotes a real day and month of year Y —
the code itself performs no calendar validation (and a future-flagged
candidate may instead be completed with year Y+1). -/
theorem applyYear_exact_format :
    ∀ (d1 d2 m1 m2 year : Nat) (today : TodayDM),
      isDigitN d1 = true → isDigitN d2 = true →
      isDigitN m1 = true → isDigitN m2 = true →
      1000 ≤ year → year ≤ 9999 →
      applyYearToDDMM [d1, d2, slashCh, m1, m2] year false today =
        natToStr year ++ [hyphenCh, m1, m2, hyphenCh, d1, d2] ∧
      ((newDateMs (applyYearToDDMM [d1, d2, slashCh, m1, m2] year false today)).isSome = true ↔
        (1 ≤ digitVal m1 * 10 + digitVal m2 ∧ digitVal m1 * 10 + digitVal m2 ≤ 12 ∧
         1 ≤ digitVal d1 * 10 + digitVal d2 ∧
         digitVal d1 * 10 + digitVal d2 ≤
           daysInMonth year (digitVal m1 * 10 + digitVal m2))) := by
  intro d1 d2 m1 m2 year today hd1 hd2 hm1 hm2 hy1 hy2
  have hsplit := jsSplitOn_ddmm hd1 hd2 hm1 hm2
  have heq : applyYearToDDMM [d1, d2, slashCh, m1, m2] year false today =
      natToStr year ++ [hyphenCh, m1, m2, hyphenCh, d1, d2] := by
    unfold applyYearToDDMM
    rw [hsplit]
    simp [padStart2]
  refine ⟨heq, ?_⟩
  rw [heq, natToStr_four hy1 hy2]
  simp only [List.cons_append, List.nil_append]
  rw [newDateMs]
  simp only [isDigitN, decide_eq_true_eq] at hd1 hd2 hm1 hm2
  have hbool : (decide (48 ≤ 48 + year / 1000 ∧ 48 + year / 1000 ≤ 57) &&
      decide (48 ≤ 48 + year / 100 % 10 ∧ 48 + year / 100 % 10 ≤ 57) &&
      decide (48 ≤ 48 + year / 10 % 10 ∧ 48 + year / 10 % 10 ≤ 57) &&
      decide (48 ≤ 48 + year % 10 ∧ 48 + year % 10 ≤ 57) &&
      (hyphenCh == hyphenCh) && decide (48 ≤ m1 ∧ m1 ≤ 57) && decide (48 ≤ m2 ∧ m2 ≤ 57) &&
      (hyphenCh == hyphenCh) && decide (48 ≤ d1 ∧ d1 ≤ 57) && decide (48 ≤ d2 ∧ d2 ≤ 57)) =
      true := by
    have : year / 1000 ≤ 9 := by omega
    have : year / 100 % 10 ≤ 9 := by omega
    have : year / 10 % 10 ≤ 9 := by omega
    have : year % 10 ≤ 9 := by omega
    simp only [Bool.and_eq_true, decide_eq_true_eq, beq_self_eq_true, and_true, true_and]
    omega
  rw [if_pos (by simp only [isDigitN]; exact hbool)]
  simp only []
  have hy : digitVal (48 + year / 1000) * 1000 + digitVal (48 + year / 100 % 10) * 100 +
      digitVal (48 + year / 10 % 10) * 10 + digitVal (48 + year % 10) = year := by
    simp only [digitVal]
    omega
  rw [hy]
  by_cases hC : 1 ≤ digitVal m1 * 10 + digitVal m2 ∧ digitVal m1 * 10 + digitVal m2 ≤ 12 ∧
      1 ≤ digitVal d1 * 10 + digitVal d2 ∧
      digitVal d1 * 10 + digitVal d2 ≤ daysInMonth year (digitVal m1 * 10 + digitVal m2)
  · rw [if_pos hC]
    simpa using hC
  · rw [if_neg hC]
    simpa using hC

/-- Concrete check of claim C5's amended theorem: 15/03 with resolved year
2024 completes to exactly 2024-03-15, which is a valid calendar date. -/
theorem applyYear_exact_format_check :
    applyYearToDDMM (strN "15/03") 2024 false ⟨1, 1⟩ =
      natToStr 2024 ++ [hyphenCh, 48, 51, hyphenCh, 49, 53] ∧
    (newDateMs (applyYearToDDMM (strN "15/03") 2024 false ⟨1, 1⟩)).isSome = true := by
  have h := applyYear_exact_format 49 53 48 51 2024 ⟨1, 1⟩ (by decide) (by decide)
    (by decide) (by decide) (by decide) (by decide)
  have hstr : strN "15/03" = [49, 53, slashCh, 48, 51] := by decide
  rw [hstr]
  exact ⟨h.1, h.2.mpr (by decide)⟩

/-! ## Claim C6: skip-list non-origination -/

/-- A space-free needle occurring in a haystack still occurs after the
leading whitespace is dropped. -/
theorem containsSub_dropWhile_of :
    ∀ (u kw : Str), kw.all (fun c => !isJsSpace c) = true →
      containsSub kw u = true → containsSub kw (u.dropWhile isJsSpace) = true := by
  intro u
  induction u with
  | nil => intro kw _ h; simpa using h
  | cons c t ih =>
    intro kw hns h
    rw [List.dropWhile_cons]
    by_cases hc : isJsSpace c = true
    · rw [if_pos hc]
      rw [containsSub, Bool.or_eq_true] at h
      rcases h with h | h
      · cases kw with
        | nil => exact containsSub_nil_left _
        | cons k kw' =>
          rw [startsWithSeq, Bool.and_eq_true] at h
          have hk : k = c := by simpa using h.1
          have := (List.all_eq_true.mp hns) k (by simp)
          rw [hk, hc] at this
          simp at this
      · exact ih kw hns h
    · rw [if_neg hc]
      exact h

/-- A string whose end-trim is empty is all whitespace. -/
theorem trimEnd_nil_all_space :
    ∀ (t : Str), trimEndWs t = [] → t.all isJsSpace = true := by
  intro t
  induction t with
  | nil => intro _; rfl
  | cons c t' ih =>
    intro h
    rw [trimEndWs] at h
    cases htr : trimEndWs t' with
    | nil =>
      rw [htr] at h
      by_cases hc : isJsSpace c = true
      · rw [List.all_cons, hc, ih htr]
        rfl
      · rw [if_neg hc] at h
        simp at h
    | cons d r =>
      rw [htr] at h
      simp at h

/-- A space-free initial segment of an all-whitespace string is empty. -/
theorem startsWithSeq_all_space_nil :
    ∀ (kw t : Str), kw.all (fun c => !isJsSpace c) = true → t.all isJsSpace = true →
      startsWithSeq kw t = true → kw = [] := by
  intro kw t hns hsp h
  cases kw with
  | nil => rfl
  | cons k kw' =>
    cases t with
    | nil => simp [startsWithSeq] at h
    | cons c t' =>
      rw [startsWithSeq, Bool.and_eq_true] at h
      have hk : k = c := by simpa using h.1
      have h1 := (List.all_eq_true.mp hns) k (by simp)
      have h2 := (List.all_eq_true.mp hsp) c (by simp)
      rw [hk, h2] at h1
      simp at h1

/-- A space-free needle leading a haystack still leads it after the end
trim. -/
theorem startsWithSeq_trimEnd_of :
    ∀ (t kw : Str), kw.all (fun c => !isJsSpace c) = true →
      startsWithSeq kw t = true → startsWithSeq kw (trimEndWs t) = true := by
  intro t
  induction t with
  | nil =>
    intro kw _ h
    simpa [trimEndWs] using h
  | cons c t' ih =>
    intro kw hns h
    cases kw with
    | nil => rfl
    | cons k kw' =>
      rw [startsWithSeq, Bool.and_eq_true] at h
      have hkw' : kw'.all (fun c => !isJsSpace c) = true :=
        List.all_eq_true.mpr (fun b hb => (List.all_eq_true.mp hns) b (by simp [hb]))
      rw [trimEndWs]
      cases htr : trimEndWs t' with
      | nil =>
        have hsp' : t'.all isJsSpace = true := trimEnd_nil_all_space t' htr
        have hkw'nil : kw' = [] := startsWithSeq_all_space_nil kw' t' hkw' hsp' h.2
        subst hkw'nil
        have hk : k = c := by simpa using h.1
        have hcns : isJsSpace c = false := by
          have := (List.all_eq_true.mp hns) k (by simp)
          rw [hk] at this
          simpa using this
        rw [hcns]
        simp [startsWithSeq, hk]
      | cons d r =>
        rw [startsWithSeq, Bool.and_eq_true]
        refine ⟨h.1, ?_⟩
        rw [← htr]
        exact ih kw' hkw' h.2

/-- A space-free needle occurring in a haystack still occurs after the end
trim. -/
theorem containsSub_trimEnd_of :
    ∀ (t kw : Str), kw.all (fun c => !isJsSpace c) = true →
      containsSub kw t = true → containsSub kw (trimEndWs t) = true := by
  intro t
  induction t with
  | nil => intro kw _ h; simpa [trimEndWs] using h
  | cons c t' ih =>
    intro kw hns h
    rw [containsSub, Bool.or_eq_true] at h
    rw [trimEndWs]
    cases htr : trimEndWs t' with
    | nil =>
      rcases h with h | h
      · cases kw with
        | nil => exact containsSub_nil_left _
        | cons k kw' =>
          rw [startsWithSeq, Bool.and_eq_true] at h
          have hkw' : kw'.all (fun c => !isJsSpace c) = true :=
            List.all_eq_true.mpr (fun b hb => (List.all_eq_true.mp hns) b (by simp [hb]))
          have hsp' : t'.all isJsSpace = true := trimEnd_nil_all_space t' htr
          have hkw'nil : kw' = [] := startsWithSeq_all_space_nil kw' t' hkw' hsp' h.2
          subst hkw'nil
          have hk : k = c := by simpa using h.1
          have hcns : isJsSpace c = false := by
            have := (List.all_eq_true.mp hns) k (by simp)
            rw [hk] at this
            simpa using this
          rw [hcns]
          simp [containsSub, startsWithSeq, hk]
      · have := ih kw hns h
        rw [htr] at this
        cases kw with
        | nil => exact containsSub_nil_left _
        | cons k kw' => simp [containsSub] at this
    | cons d r =>
      rcases h with h | h
      · rw [containsSub, Bool.or_eq_true]
        left
        cases kw with
        | nil => rfl
        | cons k kw' =>
          rw [startsWithSeq, Bool.and_eq_true] at h
          have hkw' : kw'.all (fun c => !isJsSpace c) = true :=
            List.all_eq_true.mpr (fun b hb => (List.all_eq_true.mp hns) b (by simp [hb]))
          rw [startsWithSeq, Bool.and_eq_true]
          refine ⟨h.1, ?_⟩
          rw [← htr]
          exact startsWithSeq_trimEnd_of t' kw' hkw' h.2
      · have := ih kw hns h
        rw [htr] at this
        exact containsSub_cons_of c this

/-- A space-free needle occurring in a haystack still occurs after a full
trim. -/
theorem containsSub_jsTrim_of {s kw : Str} (hns : kw.all (fun c => !isJsSpace c) = true)
    (h : containsSub kw s = true) : containsSub kw (jsTrim s) = true :=
  containsSub_trimEnd_of _ kw hns (containsSub_dropWhile_of s kw hns h)

/-- A line that passes the skip filter contains (case-insensitively) none
of the skip keywords anywhere in its raw text. -/
theorem line_free_of_not_skipped {s : Str} (h : shouldSkip (jsTrim s) = false) :
    ∀ kw ∈ skipKeywordList, containsSub kw (s.map jsToUpper) = false := by
  intro kw hkw
  by_contra hc
  have hc' := Bool.ne_false_iff.mp hc
  have h1 : containsSub kw (jsTrim (s.map jsToUpper)) = true :=
    containsSub_jsTrim_of (skipKw_space_free kw hkw) hc'
  rw [← map_up_trim] at h1
  have : shouldSkip (jsTrim s) = true := List.any_eq_true.mpr ⟨kw, hkw, h1⟩
  rw [h] at this
  exact absurd this (by simp)

/-- Erasing the provenance annotation of `absorbAnn` gives back `absorb`:
the combined text and the unconsumed lines agree. -/
theorem absorbAnn_proj :
    ∀ (rest : List Str) (c : Str) (srcs : List Str),
      (absorbAnn c srcs rest).1.1 = (absorb c rest).1 ∧
      (absorbAnn c srcs rest).2 = (absorb c rest).2 := by
  intro rest
  induction rest with
  | nil => intro c srcs; exact ⟨rfl, rfl⟩
  | cons l rest ih =>
    intro c srcs
    rw [absorbAnn, absorb]
    by_cases h1 : hasAnyValue c = true
    · rw [if_pos h1, if_pos h1]
      exact ⟨rfl, rfl⟩
    · rw [if_neg h1, if_neg h1]
      simp only []
      by_cases h2 : (jsTrim l).isEmpty = true
      · rw [if_pos h2, if_pos h2]
        exact ih c srcs
      · rw [if_neg h2, if_neg h2]
        by_cases h3 : (matchDatePrefix (jsTrim l)).isSome = true
        · rw [if_pos h3, if_pos h3]
          exact ⟨rfl, rfl⟩
        · rw [if_neg h3, if_neg h3]
          by_cases h4 : shouldSkip (jsTrim l) = true
          · rw [if_pos h4, if_pos h4]
            exact ih c srcs
          · rw [if_neg h4, if_neg h4]
            by_cases h5 : 400 < (jsTrim (collapseWs (c ++ spaceCh :: jsTrim l))).length
            · rw [if_pos h5, if_pos h5]
              exact ⟨rfl, rfl⟩
            · rw [if_neg h5, if_neg h5]
              exact ih _ _

/-- Every source line `absorbAnn` records was either already recorded or is
a line of the remaining input that passes the skip filter. -/
theorem absorbAnn_srcs :
    ∀ (rest : List Str) (c : Str) (srcs : List Str) (s : Str),
      s ∈ (absorbAnn c srcs rest).1.2 →
      s ∈ srcs ∨ (s ∈ rest ∧ shouldSkip (jsTrim s) = false) := by
  intro rest
  induction rest with
  | nil => intro c srcs s h; exact Or.inl h
  | cons l rest ih =>
    intro c srcs s h
    rw [absorbAnn] at h
    by_cases h1 : hasAnyValue c = true
    · rw [if_pos h1] at h
      exact Or.inl h
    · rw [if_neg h1] at h
      simp only [] at h
      by_cases h2 : (jsTrim l).isEmpty = true
      · rw [if_pos h2] at h
        rcases ih c srcs s h with h' | h'
        · exact Or.inl h'
        · exact Or.inr ⟨List.mem_cons_of_mem l h'.1, h'.2⟩
      · rw [if_neg h2] at h
        by_cases h3 : (matchDatePrefix (jsTrim l)).isSome = true
        · rw [if_pos h3] at h
          exact Or.inl h
        · rw [if_neg h3] at h
          by_cases h4 : shouldSkip (jsTrim l) = true
          · rw [if_pos h4] at h
            rcases ih c srcs s h with h' | h'
            · exact Or.inl h'
            · exact Or.inr ⟨List.mem_cons_of_mem l h'.1, h'.2⟩
          · rw [if_neg h4] at h
            have hl : shouldSkip (jsTrim l) = false := Bool.eq_false_iff.mpr h4
            by_cases h5 : 400 < (jsTrim (collapseWs (c ++ spaceCh :: jsTrim l))).length
            · rw [if_pos h5] at h
              rcases List.mem_append.mp h with h' | h'
              · exact Or.inl h'
              · have : s = l := by simpa using h'
                exact Or.inr ⟨this ▸ List.mem_cons_self l rest, this ▸ hl⟩
            · rw [if_neg h5] at h
              rcases ih _ (srcs ++ [l]) s h with h' | h'
              · rcases List.mem_append.mp h' with h'' | h''
                · exact Or.inl h''
                · have : s = l := by simpa using h''
                  exact Or.inr ⟨this ▸ List.mem_cons_self l rest, this ▸ hl⟩
              · exact Or.inr ⟨List.mem_cons_of_mem l h'.1, h'.2⟩

/-- The lines `absorb` leaves unconsumed are lines of its input. -/
theorem absorb_mem_rest :
    ∀ (rest : List Str) (c : Str) (x : Str), x ∈ (absorb c rest).2 → x ∈ rest := by
  intro rest
  induction rest with
  | nil => intro c x h; simp [absorb] at h
  | cons l rest ih =>
    intro c x h
    rw [absorb] at h
    by_cases h1 : hasAnyValue c = true
    · rw [if_pos h1] at h
      exact h
    · rw [if_neg h1] at h
      simp only [] at h
      by_cases h2 : (jsTrim l).isEmpty = true
      · rw [if_pos h2] at h
        exact List.mem_cons_of_mem l (ih c x h)
      · rw [if_neg h2] at h
        by_cases h3 : (matchDatePrefix (jsTrim l)).isSome = true
        · rw [if_pos h3] at h
          exact h
        · rw [if_neg h3] at h
          by_cases h4 : shouldSkip (jsTrim l) = true
          · rw [if_pos h4] at h
            exact List.mem_cons_of_mem l (ih c x h)
          · rw [if_neg h4] at h
            by_cases h5 : 400 < (jsTrim (collapseWs (c ++ spaceCh :: jsTrim l))).length
            · rw [if_pos h5] at h
              exact List.mem_cons_of_mem l h
            · rw [if_neg h5] at h
              exact List.mem_cons_of_mem l (ih _ x h)

/-- Erasing the annotations of `extractAnn` gives back `extractAux`. -/
theorem extractAnn_proj :
    ∀ (fuel : Nat) (flag : Bool) (lines : List Str),
      (extractAnn fuel flag lines).map Prod.fst = extractAux fuel flag lines := by
  intro fuel
  induction fuel with
  | zero => intro flag lines; cases lines <;> rfl
  | succ fuel ih =>
    intro flag lines
    match lines with
    | [] => rfl
    | l :: rest =>
      rw [extractAnn, extractAux]
      by_cases h1 : (jsTrim l).isEmpty = true
      · rw [if_pos h1, if_pos h1]
        exact ih flag rest
      · rw [if_neg h1, if_neg h1]
        by_cases h2 : isFutureSectionHeader (jsTrim l) = true
        · rw [if_pos h2, if_pos h2]
          exact ih true rest
        · rw [if_neg h2, if_neg h2]
          by_cases h3 : shouldSkip (jsTrim l) = true
          · rw [if_pos h3, if_pos h3]
            exact ih flag rest
          · rw [if_neg h3, if_neg h3]
            cases hdate : matchDatePrefix (jsTrim l) with
            | none => exact ih flag rest
            | some date =>
              simp only []
              obtain ⟨hp1, hp2⟩ := absorbAnn_proj rest (jsTrim l) [l]
              rw [hp1, hp2]
              cases hpc : parseCombined flag date (absorb (jsTrim l) rest).1 with
              | none => exact ih flag _
              | some tx =>
                rw [List.map_cons]
                exact congrArg (tx :: ·) (ih flag _)

/-- Every source line recorded for any emitted candidate is a line of the
document that passes the skip filter. -/
theorem extractAnn_srcs :
    ∀ (fuel : Nat) (flag : Bool) (lines : List Str) (tx : ParsedTransaction)
      (srcs : List Str), (tx, srcs) ∈ extractAnn fuel flag lines →
      ∀ s ∈ srcs, s ∈ lines ∧ shouldSkip (jsTrim s) = false := by
  intro fuel
  induction fuel with
  | zero => intro flag lines tx srcs h; simp [extractAnn] at h
  | succ fuel ih =>
    intro flag lines tx srcs h
    match lines with
    | [] => simp [extractAnn] at h
    | l :: rest =>
      rw [extractAnn] at h
      by_cases h1 : (jsTrim l).isEmpty = true
      · rw [if_pos h1] at h
        intro s hs
        obtain ⟨hmem, hskip⟩ := ih flag rest tx srcs h s hs
        exact ⟨List.mem_cons_of_mem l hmem, hskip⟩
      · rw [if_neg h1] at h
        by_cases h2 : isFutureSectionHeader (jsTrim l) = true
        · rw [if_pos h2] at h
          intro s hs
          obtain ⟨hmem, hskip⟩ := ih true rest tx srcs h s hs
          exact ⟨List.mem_cons_of_mem l hmem, hskip⟩
        · rw [if_neg h2] at h
          by_cases h3 : shouldSkip (jsTrim l) = true
          · rw [if_pos h3] at h
            intro s hs
            obtain ⟨hmem, hskip⟩ := ih flag rest tx srcs h s hs
            exact ⟨List.mem_cons_of_mem l hmem, hskip⟩
          · rw [if_neg h3] at h
            cases hdate : matchDatePrefix (jsTrim l) with
            | none =>
              rw [hdate] at h
              intro s hs
              obtain ⟨hmem, hskip⟩ := ih flag rest tx srcs h s hs
              exact ⟨List.mem_cons_of_mem l hmem, hskip⟩
            | some date =>
              rw [hdate] at h
              simp only [] at h
              have htail : ∀ s ∈ srcs,
                  (tx, srcs) ∈ extractAnn fuel flag (absorbAnn (jsTrim l) [l] rest).2 →
                  s ∈ l :: rest ∧ shouldSkip (jsTrim s) = false := by
                intro s hs hmem
                obtain ⟨hm, hsk⟩ := ih flag _ tx srcs hmem s hs
                rw [(absorbAnn_proj rest (jsTrim l) [l]).2] at hm
                exact ⟨List.mem_cons_of_mem l (absorb_mem_rest rest (jsTrim l) s hm), hsk⟩
              split at h
              · intro s hs
                exact htail s hs h
              · rcases List.mem_cons.mp h with heq | hmem
                · obtain ⟨rfl, rfl⟩ := Prod.mk.injEq .. ▸ (by
                    exact ⟨congrArg Prod.fst heq, congrArg Prod.snd heq⟩ :
                    tx = _ ∧ srcs = _)
                  intro s hs
                  rcases absorbAnn_srcs rest (jsTrim l) [l] s hs with h' | h'
                  · have : s = l := by simpa using h'
                    subst this
                    exact ⟨List.mem_cons_self s rest, Bool.eq_false_iff.mpr h3⟩
                  · exact ⟨List.mem_cons_of_mem l h'.1, h'.2⟩
                · intro s hs
                  exact htail s hs hmem

/-- The absorption loop never lengthens the remaining line list. -/
theorem absorb_rest_len :
    ∀ (rest : List Str) (c : Str), (absorb c rest).2.length ≤ rest.length := by
  intro rest
  induction rest with
  | nil => intro c; simp [absorb]
  | cons l rest ih =>
    intro c
    rw [absorb]
    by_cases h1 : hasAnyValue c = true
    · rw [if_pos h1]
    · rw [if_neg h1]
      simp only []
      by_cases h2 : (jsTrim l).isEmpty = true
      · rw [if_pos h2]
        exact le_trans (ih c) (by simp)
      · rw [if_neg h2]
        by_cases h3 : (matchDatePrefix (jsTrim l)).isSome = true
        · rw [if_pos h3]
        · rw [if_neg h3]
          by_cases h4 : shouldSkip (jsTrim l) = true
          · rw [if_pos h4]
            exact le_trans (ih c) (by simp)
          · rw [if_neg h4]
            by_cases h5 : 400 < (jsTrim (collapseWs (c ++ spaceCh :: jsTrim l))).length
            · rw [if_pos h5]
              simp
            · rw [if_neg h5]
              exact le_trans (ih _) (by simp)

/-- With any two sufficient fuels, the fuelled extractor computes the same
result. -/
theorem extractAux_fuel_irrel :
    ∀ (n : Nat) (lines : List Str) (flag : Bool) (f1 f2 : Nat),
      lines.length ≤ n → lines.length ≤ f1 → lines.length ≤ f2 →
      extractAux f1 flag lines = extractAux f2 flag lines := by
  intro n
  induction n with
  | zero =>
    intro lines flag f1 f2 hn _ _
    have : lines = [] := List.eq_nil_of_length_eq_zero (by omega)
    subst this
    cases f1 <;> cases f2 <;> rfl
  | succ n ih =>
    intro lines flag f1 f2 hn h1 h2
    match lines with
    | [] => cases f1 <;> cases f2 <;> rfl
    | l :: rest =>
      rw [List.length_cons] at hn h1 h2
      match f1, f2 with
      | g1 + 1, g2 + 1 =>
        rw [extractAux, extractAux]
        have hrest : rest.length ≤ n := by omega
        have hg1 : rest.length ≤ g1 := by omega
        have hg2 : rest.length ≤ g2 := by omega
        by_cases c1 : (jsTrim l).isEmpty = true
        · rw [if_pos c1, if_pos c1]
          exact ih rest flag g1 g2 hrest hg1 hg2
        · rw [if_neg c1, if_neg c1]
          by_cases c2 : isFutureSectionHeader (jsTrim l) = true
          · rw [if_pos c2, if_pos c2]
            exact ih rest true g1 g2 hrest hg1 hg2
          · rw [if_neg c2, if_neg c2]
            by_cases c3 : shouldSkip (jsTrim l) = true
            · rw [if_pos c3, if_pos c3]
              exact ih rest flag g1 g2 hrest hg1 hg2
            · rw [if_neg c3, if_neg c3]
              cases hdate : matchDatePrefix (jsTrim l) with
              | none => exact ih rest flag g1 g2 hrest hg1 hg2
              | some date =>
                simp only []
                have har : (absorb (jsTrim l) rest).2.length ≤ rest.length :=
                  absorb_rest_len rest (jsTrim l)
                cases hpc : parseCombined flag date (absorb (jsTrim l) rest).1 with
                | none =>
                  exact ih _ flag g1 g2 (by omega) (by omega) (by omega)
                | some tx =>
                  exact congrArg (tx :: ·)
                    (ih _ flag g1 g2 (by omega) (by omega) (by omega))

/-- When the combined text already holds a value match, the absorption
loop returns immediately. -/
theorem absorb_hasAny {c : Str} (h : hasAnyValue c = true) :
    ∀ rest : List Str, absorb c rest = (c, rest) := by
  intro rest
  cases rest with
  | nil => rfl
  | cons l r => rw [absorb, if_pos h]

/-- Dropping a skip-keyword line that does not look like a dated row from
anywhere in the absorption input leaves the combined text unchanged; the
unconsumed lines are the same, up to that line still waiting at the head of
the unconsumed region. -/
theorem absorb_skip_middle :
    ∀ (l : Str) (b : List Str), shouldSkip (jsTrim l) = true →
      matchDatePrefix (jsTrim l) = none →
      (jsTrim l).isEmpty = false →
      ∀ (a : List Str) (c : Str),
        (absorb c (a ++ l :: b)).1 = (absorb c (a ++ b)).1 ∧
        ((absorb c (a ++ l :: b)).2 = (absorb c (a ++ b)).2 ∨
          ∃ x, (absorb c (a ++ l :: b)).2 = x ++ l :: b ∧
            (absorb c (a ++ b)).2 = x ++ b) := by
  intro l b hskip hdate hne a
  induction a with
  | nil =>
    intro c
    rw [List.nil_append, List.nil_append]
    by_cases h1 : hasAnyValue c = true
    · rw [absorb_hasAny h1 (l :: b), absorb_hasAny h1 b]
      exact ⟨rfl, Or.inr ⟨[], rfl, rfl⟩⟩
    · have hstep : absorb c (l :: b) = absorb c b := by
        rw [absorb, if_neg h1]
        simp only []
        rw [if_neg (by rw [hne]; simp), if_neg (by rw [hdate]; simp), if_pos hskip]
      rw [hstep]
      exact ⟨rfl, Or.inl rfl⟩
  | cons p a' ih =>
    intro c
    rw [List.cons_append, List.cons_append, absorb, absorb]
    by_cases h1 : hasAnyValue c = true
    · rw [if_pos h1, if_pos h1]
      exact ⟨rfl, Or.inr ⟨p :: a', rfl, rfl⟩⟩
    · rw [if_neg h1, if_neg h1]
      simp only []
      by_cases h2 : (jsTrim p).isEmpty = true
      · rw [if_pos h2, if_pos h2]
        exact ih c
      · rw [if_neg h2, if_neg h2]
        by_cases h3 : (matchDatePrefix (jsTrim p)).isSome = true
        · rw [if_pos h3, if_pos h3]
          exact ⟨rfl, Or.inr ⟨p :: a', rfl, rfl⟩⟩
        · rw [if_neg h3, if_neg h3]
          by_cases h4 : shouldSkip (jsTrim p) = true
          · rw [if_pos h4, if_pos h4]
            exact ih c
          · rw [if_neg h4, if_neg h4]
            by_cases h5 : 400 < (jsTrim (collapseWs (c ++ spaceCh :: jsTrim p))).length
            · rw [if_pos h5, if_pos h5]
              exact ⟨rfl, Or.inr ⟨a', rfl, rfl⟩⟩
            · rw [if_neg h5, if_neg h5]
              exact ih _

/-- Deleting from anywhere in the document a skip-keyword line that is not
a future-section header and does not start with a date leaves the
extraction unchanged: such a line contributes nothing. -/
theorem extract_delete_skip_line :
    ∀ (l : Str), shouldSkip (jsTrim l) = true →
      isFutureSectionHeader (jsTrim l) = false →
      matchDatePrefix (jsTrim l) = none →
      ∀ (n : Nat) (pre post : List Str) (flag : Bool) (f1 f2 : Nat),
        (pre ++ l :: post).length ≤ n →
        (pre ++ l :: post).length ≤ f1 →
        (pre ++ post).length ≤ f2 →
        extractAux f1 flag (pre ++ l :: post) = extractAux f2 flag (pre ++ post) := by
  intro l hskip hnothdr hdate
  have hne : (jsTrim l).isEmpty = false := by
    by_contra hc
    have h0 : jsTrim l = [] := by
      cases h : jsTrim l with
      | nil => rfl
      | cons c t => rw [h] at hc; simp at hc
    rw [h0] at hskip
    have : shouldSkip ([] : Str) = false := by decide
    rw [this] at hskip
    exact absurd hskip (by simp)
  intro n
  induction n with
  | zero =>
    intro pre post flag f1 f2 hn _ _
    have : 0 < (pre ++ l :: post).length := by simp
    omega
  | succ n ih =>
    intro pre post flag f1 f2 hn h1 h2
    match pre with
    | [] =>
      rw [List.nil_append] at hn h1 ⊢
      rw [List.nil_append] at h2 ⊢
      rw [List.length_cons] at hn h1
      match f1 with
      | g1 + 1 =>
        rw [extractAux, if_neg (by rw [hne]; simp), if_neg (by rw [hnothdr]; simp),
          if_pos hskip]
        exact extractAux_fuel_irrel post.length post flag g1 f2 le_rfl (by omega) h2
    | p :: pre' =>
      rw [List.cons_append] at hn h1 ⊢
      rw [List.cons_append] at h2 ⊢
      rw [List.length_cons] at hn h1 h2
      match f1, f2 with
      | g1 + 1, g2 + 1 =>
        rw [extractAux, extractAux]
        have hlen : (pre' ++ l :: post).length ≤ n := by omega
        have hlen2 : (pre' ++ post).length ≤ (pre' ++ l :: post).length := by
          simp [List.length_append]
        by_cases c1 : (jsTrim p).isEmpty = true
        · rw [if_pos c1, if_pos c1]
          exact ih pre' post flag g1 g2 hlen (by omega) (by omega)
        · rw [if_neg c1, if_neg c1]
          by_cases c2 : isFutureSectionHeader (jsTrim p) = true
          · rw [if_pos c2, if_pos c2]
            exact ih pre' post true g1 g2 hlen (by omega) (by omega)
          · rw [if_neg c2, if_neg c2]
            by_cases c3 : shouldSkip (jsTrim p) = true
            · rw [if_pos c3, if_pos c3]
              exact ih pre' post flag g1 g2 hlen (by omega) (by omega)
            · rw [if_neg c3, if_neg c3]
              cases hd : matchDatePrefix (jsTrim p) with
              | none => exact ih pre' post flag g1 g2 hlen (by omega) (by omega)
              | some date =>
                simp only []
                obtain ⟨hc, hrem⟩ := absorb_skip_middle l post hskip hdate hne pre' (jsTrim p)
                rw [hc]
                have hlen1 : (absorb (jsTrim p) (pre' ++ l :: post)).2.length ≤
                    (pre' ++ l :: post).length := absorb_rest_len _ _
                have hlenB : (absorb (jsTrim p) (pre' ++ post)).2.length ≤
                    (pre' ++ post).length := absorb_rest_len _ _
                cases hpc : parseCombined flag date (absorb (jsTrim p) (pre' ++ post)).1 with
                | none =>
                  rcases hrem with heq | ⟨x, hx1, hx2⟩
                  · rw [heq]
                    exact extractAux_fuel_irrel (absorb (jsTrim p) (pre' ++ post)).2.length
                      _ flag g1 g2 le_rfl (by rw [← heq] at hlenB ⊢; omega) (by omega)
                  · rw [hx1, hx2]
                    refine ih x post flag g1 g2 ?_ ?_ ?_
                    · rw [← hx1]; omega
                    · rw [← hx1]; omega
                    · rw [← hx2]; omega
                | some tx =>
                  rcases hrem with heq | ⟨x, hx1, hx2⟩
                  · rw [heq]
                    exact congrArg (tx :: ·)
                      (extractAux_fuel_irrel (absorb (jsTrim p) (pre' ++ post)).2.length
                        _ flag g1 g2 le_rfl (by rw [← heq] at hlenB ⊢; omega) (by omega))
                  · rw [hx1, hx2]
                    exact congrArg (tx :: ·)
                      (ih x post flag g1 g2 (by rw [← hx1]; omega)
                        (by rw [← hx1]; omega) (by rw [← hx2]; omega))

/-- Claim C6.  No output transaction's description originates from a
reconstructed line containing SALDO, BLOQ or LIMITE: (1) the provenance
annotation is faithful — erasing it gives the extractor back; (2) every
source line whose text enters any emitted candidate's combined row (and
hence its description) is a line of the document that passes the skip
filter and contains, case-insensitively, none of the three keywords;
(3) consequently no emitted description contains any of them; and (4) in
any document whatsoever, deleting the line `SALDO DO DIA 1.200,00` leaves
the extraction unchanged — that line contributes zero output
transactions wherever it appears. -/
theorem skip_keywords_never_in_descriptions :
    (∀ (fuel : Nat) (flag : Bool) (lines : List Str),
       (extractAnn fuel flag lines).map Prod.fst = extractAux fuel flag lines) ∧
    (∀ (fuel : Nat) (flag : Bool) (lines : List Str) (tx : ParsedTransaction)
       (srcs : List Str), (tx, srcs) ∈ extractAnn fuel flag lines →
       ∀ s ∈ srcs, s ∈ lines ∧ shouldSkip (jsTrim s) = false ∧
         containsSub (strN "SALDO") (s.map jsToUpper) = false ∧
         containsSub (strN "BLOQ") (s.map jsToUpper) = false ∧
         containsSub (strN "LIMITE") (s.map jsToUpper) = false) ∧
    (∀ (fuel : Nat) (flag : Bool) (lines : List Str) (tx : ParsedTransaction),
       tx ∈ extractAux fuel flag lines →
       containsSub (strN "SALDO") (tx.description.map jsToUpper) = false ∧
       containsSub (strN "BLOQ") (tx.description.map jsToUpper) = false ∧
       containsSub (strN "LIMITE") (tx.description.map jsToUpper) = false) ∧
    (∀ pre post : List Str,
       extractTransactionsFromLines (pre ++ strN "SALDO DO DIA 1.200,00" :: post) =
         extractTransactionsFromLines (pre ++ post)) := by
  refine ⟨extractAnn_proj, ?_, ?_, ?_⟩
  · intro fuel flag lines tx srcs h s hs
    obtain ⟨hmem, hskip⟩ := extractAnn_srcs fuel flag lines tx srcs h s hs
    have hfree := line_free_of_not_skipped hskip
    exact ⟨hmem, hskip, hfree (strN "SALDO") (by decide), hfree (strN "BLOQ") (by decide),
      hfree (strN "LIMITE") (by decide)⟩
  · intro fuel flag lines tx h
    have hn := extractAux_noSkipKw fuel flag lines tx h
    exact ⟨hn (strN "SALDO") (by decide), hn (strN "BLOQ") (by decide),
      hn (strN "LIMITE") (by decide)⟩
  · intro pre post
    exact extract_delete_skip_line (strN "SALDO DO DIA 1.200,00") (by decide) (by decide)
      (by decide) (pre ++ strN "SALDO DO DIA 1.200,00" :: post).length pre post false _ _
      le_rfl le_rfl le_rfl

/-- Concrete check of claim C6's theorem: the candidate extracted from a
tariff row is annotated with exactly its own non-skip source line, whose
text is free of the three keywords, and inserting the balance line
`SALDO DO DIA 1.200,00` into that document changes nothing. -/
theorem skip_keywords_never_in_descriptions_check :
    ((strN "03/02 TARIFA MENSAL 7,00D") ∈ [strN "03/02 TARIFA MENSAL 7,00D"] ∧
      shouldSkip (jsTrim (strN "03/02 TARIFA MENSAL 7,00D")) = false ∧
      containsSub (strN "SALDO") ((strN "03/02 TARIFA MENSAL 7,00D").map jsToUpper) = false ∧
      containsSub (strN "BLOQ") ((strN "03/02 TARIFA MENSAL 7,00D").map jsToUpper) = false ∧
      containsSub (strN "LIMITE") ((strN "03/02 TARIFA MENSAL 7,00D").map jsToUpper) = false) ∧
    extractTransactionsFromLines
        [strN "03/02 TARIFA MENSAL 7,00D", strN "SALDO DO DIA 1.200,00"] =
      extractTransactionsFromLines [strN "03/02 TARIFA MENSAL 7,00D"] := by
  constructor
  · refine skip_keywords_never_in_descriptions.2.1 1 false
      [strN "03/02 TARIFA MENSAL 7,00D"]
      ⟨strN "03/02", strN "TARIFA MENSAL", 7, TransactionType.expense, false⟩
      [strN "03/02 TARIFA MENSAL 7,00D"] (by decide) _ (by decide)
  · have h := skip_keywords_never_in_descriptions.2.2.2
      [strN "03/02 TARIFA MENSAL 7,00D"] []
    simpa using h
